import Mathlib

-- Verification development for the collaboration service: a shallow embedding of
-- the replicated document store (backend/database/db_interface.py), the business
-- logic including the character-level three-way merge
-- (backend/interactor/business_logic.py), and the Raft-style consensus node
-- (backend/distributed/server.py), with theorems checking the specification's
-- claims against these definitions.

set_option maxHeartbeats 1000000
set_option maxRecDepth 10000

namespace Collab

-- ### Association-list primitives modelling Python dict operations on string keys.
-- Python dicts preserve insertion order; assignment to a fresh key appends,
-- assignment to an existing key updates in place, `del` removes the binding.

def alookup (k : String) : List (String × α) → Option α
  | [] => none
  | (k', v) :: rest => if k' = k then some v else alookup k rest

def dictSet (k : String) (v : α) : List (String × α) → List (String × α)
  | [] => [(k, v)]
  | (k', v') :: rest => if k' = k then (k, v) :: rest else (k', v') :: dictSet k v rest

def dictRemove (k : String) : List (String × α) → List (String × α)
  | [] => []
  | (k', v') :: rest => if k' = k then rest else (k', v') :: dictRemove k rest

def keysOf (l : List (String × α)) : List String := l.map Prod.fst

-- `list.insert(pos, x)` in Python clamps `pos` to the end of the list.
def pyInsert : Nat → α → List α → List α
  | 0, x, l => x :: l
  | _ + 1, x, [] => [x]
  | n + 1, x, y :: ys => y :: pyInsert n x ys

-- `del l[pos : pos + len]` in Python (slices clamp to the list bounds).
def pyDelSlice (pos len : Nat) (l : List α) : List α := l.take pos ++ l.drop (pos + len)

-- ### Character-level diff.
--
-- The source calls `difflib.SequenceMatcher` (Python standard library, external
-- to this repository). Modelled from the spec: a longest-common-subsequence
-- matcher whose longest matching block breaks ties by the smallest index in the
-- first sequence, then in the second (spec 4.2.1: "ties in the LCS broken by
-- smallest-index-first"), recursing on both sides of the block. This agrees
-- with `difflib` on inputs shorter than 200 characters (no autojunk).

abbrev Chars := List Char

def commonLen : Chars → Chars → Nat
  | a :: as, b :: bs => if a = b then commonLen as bs + 1 else 0
  | _, _ => 0

def matchLenAt (a b : Chars) (i j : Nat) : Nat := commonLen (a.drop i) (b.drop j)

def candPairs (a b : Chars) : List (Nat × Nat) :=
  (List.range a.length).flatMap (fun i => (List.range b.length).map (fun j => (i, j)))

def flmStep (a b : Chars) (best : Nat × Nat × Nat) (ij : Nat × Nat) : Nat × Nat × Nat :=
  let k := matchLenAt a b ij.1 ij.2
  if best.2.2 < k then (ij.1, ij.2, k) else best

def findLongestMatch (a b : Chars) : Nat × Nat × Nat :=
  (candPairs a b).foldl (flmStep a b) (0, 0, 0)

def shiftBlocks (di dj : Nat) (bs : List (Nat × Nat × Nat)) : List (Nat × Nat × Nat) :=
  bs.map (fun t => (t.1 + di, t.2.1 + dj, t.2.2))

-- Fuel-indexed recursion on both sides of the longest matching block; the
-- wrapper `matchingBlocks` supplies fuel that is always sufficient.
def matchingBlocksF : Nat → Chars → Chars → List (Nat × Nat × Nat)
  | 0, _, _ => []
  | fuel + 1, a, b =>
    let r := findLongestMatch a b
    if r.2.2 = 0 then []
    else
      matchingBlocksF fuel (a.take r.1) (b.take r.2.1)
        ++ (r.1, r.2.1, r.2.2)
          :: shiftBlocks (r.1 + r.2.2) (r.2.1 + r.2.2)
              (matchingBlocksF fuel (a.drop (r.1 + r.2.2)) (b.drop (r.2.1 + r.2.2)))

def matchingBlocks (a b : Chars) : List (Nat × Nat × Nat) :=
  matchingBlocksF (a.length + b.length + 1) a b

inductive OpTag where
  | replace
  | delete
  | insert
  | equal
deriving DecidableEq, Repr

structure Opcode where
  tag : OpTag
  i1 : Nat
  i2 : Nat
  j1 : Nat
  j2 : Nat
deriving DecidableEq, Repr

def gapOpcodes (i ai j bj : Nat) : List Opcode :=
  if i < ai ∧ j < bj then [⟨.replace, i, ai, j, bj⟩]
  else if i < ai then [⟨.delete, i, ai, j, bj⟩]
  else if j < bj then [⟨.insert, i, ai, j, bj⟩]
  else []

-- Walk of the matching blocks emitting one opcode per gap plus an equal opcode
-- per block; `la`, `lb` play the role of difflib's terminal sentinel block.
def opcodesAux (la lb : Nat) : Nat → Nat → List (Nat × Nat × Nat) → List Opcode
  | i, j, [] => gapOpcodes i la j lb
  | i, j, (ai, bj, k) :: rest =>
    gapOpcodes i ai j bj ++ ⟨.equal, ai, ai + k, bj, bj + k⟩ :: opcodesAux la lb (ai + k) (bj + k) rest

def getOpcodes (a b : Chars) : List Opcode :=
  opcodesAux a.length b.length 0 0 (matchingBlocks a b)

-- ### Character operations (`_get_character_operations`).

inductive CharOp where
  | ins (pos : Nat) (text : Chars)
  | del (pos len : Nat)
  | rep (pos oldLen : Nat) (text : Chars)
deriving DecidableEq, Repr

def CharOp.pos : CharOp → Nat
  | .ins p _ => p
  | .del p _ => p
  | .rep p _ _ => p

def CharOp.setPos : CharOp → Nat → CharOp
  | .ins _ t, p => .ins p t
  | .del _ L, p => .del p L
  | .rep _ L t, p => .rep p L t

def slice (l : Chars) (m n : Nat) : Chars := (l.drop m).take (n - m)

def getCharacterOperations (b : Chars) (ocs : List Opcode) : List CharOp :=
  ocs.filterMap (fun oc =>
    match oc.tag with
    | .insert => some (.ins oc.i1 (slice b oc.j1 oc.j2))
    | .delete => some (.del oc.i1 (oc.i2 - oc.i1))
    | .replace => some (.rep oc.i1 (oc.i2 - oc.i1) (slice b oc.j1 oc.j2))
    | .equal => none)

def charOps (a b : Chars) : List CharOp := getCharacterOperations b (getOpcodes a b)

-- Shifted copies of opcodes and operations, and the fuel-indexed operation
-- list, used to reason about the recursive structure of the diff.
def shiftOpcode (di dj : Nat) (oc : Opcode) : Opcode :=
  ⟨oc.tag, oc.i1 + di, oc.i2 + di, oc.j1 + dj, oc.j2 + dj⟩

def shiftCharOp (m : Nat) : CharOp → CharOp
  | .ins p t => .ins (p + m) t
  | .del p L => .del (p + m) L
  | .rep p L t => .rep (p + m) L t

def opsOfF (fuel : Nat) (a b : Chars) : List CharOp :=
  getCharacterOperations b (opcodesAux a.length b.length 0 0 (matchingBlocksF fuel a b))

-- ### Stable sorts by position, modelling Python's stable `list.sort`.

def insertDescByPos (x : CharOp) : List CharOp → List CharOp
  | [] => [x]
  | y :: ys => if y.pos ≤ x.pos then x :: y :: ys else y :: insertDescByPos x ys

def sortDescByPos : List CharOp → List CharOp
  | [] => []
  | x :: xs => insertDescByPos x (sortDescByPos xs)

def insertAscByPos (x : CharOp) : List CharOp → List CharOp
  | [] => [x]
  | y :: ys => if x.pos ≤ y.pos then x :: y :: ys else y :: insertAscByPos x ys

def sortAscByPos : List CharOp → List CharOp
  | [] => []
  | x :: xs => insertAscByPos x (sortAscByPos xs)

-- ### Applying operations (`_merge_changes_character_level` apply loops).
-- The Python code edits `result = list(base_content)` in place; an insert or
-- replace places the whole text as a single list ELEMENT, so the working state
-- is a list of strings, joined at the end.

def applyServerOp (r : List Chars) (op : CharOp) : List Chars :=
  match op with
  | .ins p t => pyInsert p t r
  | .del p L => pyDelSlice p L r
  | .rep p L t => pyInsert p t (pyDelSlice p L r)

def applyClientOp (r : List Chars) (op : CharOp) : List Chars :=
  match op with
  | .ins p t => pyInsert (min p r.length) t r
  | .del p L => if p < r.length then r.take p ++ r.drop (min (p + L) r.length) else r
  | .rep p L t =>
    if p < r.length then pyInsert p t (r.take p ++ r.drop (min (p + L) r.length)) else r

-- ### Transformation of one client operation against one server operation
-- (`_transform_character_operations`, inner loop body).
-- Positions are kept as Nat: every mutation below is guarded so the Python int
-- value stays non-negative (subtraction happens only when the server span lies
-- at or before the client position), and `Int.toNat` of the non-negative exact
-- value is used where the offset is a signed difference.

def transformStep (c s : CharOp) : CharOp :=
  match s with
  | .ins sp st =>
    if sp ≤ c.pos then c.setPos (c.pos + st.length) else c
  | .del sp sL =>
    let sEnd := sp + sL
    match c with
    | .ins p t =>
      if sp < p then
        if sEnd ≤ p then .ins (p - sL) t else .ins sp t
      else .ins p t
    | .del p L =>
      let cEnd := p + L
      if sEnd ≤ p then .del (p - sL) L
      else if cEnd ≤ sp then .del p L
      else
        let p' := if sp ≤ p then sp else p
        let overlap : Int := min (cEnd : Int) (sEnd : Int) - max (p' : Int) (sp : Int)
        .del p' (if 0 < overlap then ((L : Int) - overlap).toNat else L)
    | .rep p L t =>
      let cEnd := p + L
      if sEnd ≤ p then .rep (p - sL) L t
      else if cEnd ≤ sp then .rep p L t
      else
        let p' := if sp ≤ p then sp else p
        let overlap : Int := min (cEnd : Int) (sEnd : Int) - max (p' : Int) (sp : Int)
        .rep p' (if 0 < overlap then ((L : Int) - overlap).toNat else L) t
  | .rep sp sOldL st =>
    let sEnd := sp + sOldL
    let ldiff : Int := (st.length : Int) - (sOldL : Int)
    match c with
    | .ins p t =>
      if sp < p then
        if sEnd ≤ p then .ins ((p : Int) + ldiff).toNat t
        else .ins (sp + st.length) t
      else .ins p t
    | .del p L =>
      let cEnd := p + L
      if sEnd ≤ p then .del ((p : Int) + ldiff).toNat L
      else if cEnd ≤ sp then .del p L
      else
        let p' := if sp ≤ p then sp + st.length else p
        let overlap : Int := min (cEnd : Int) (sEnd : Int) - max (p' : Int) (sp : Int)
        .del p' (if 0 < overlap then ((L : Int) - overlap).toNat else L)
    | .rep p L t =>
      let cEnd := p + L
      if sEnd ≤ p then .rep ((p : Int) + ldiff).toNat L t
      else if cEnd ≤ sp then .rep p L t
      else
        let p' := if sp ≤ p then sp + st.length else p
        let overlap : Int := min (cEnd : Int) (sEnd : Int) - max (p' : Int) (sp : Int)
        .rep p' (if 0 < overlap then ((L : Int) - overlap).toNat else L) t

-- Final validity filter of `_transform_character_operations`.
def keepOp : CharOp → Bool
  | .ins _ t => t ≠ []
  | .del _ L => 0 < L
  | .rep _ _ t => t ≠ []

def transformCharacterOperations (serverOps clientOps : List CharOp) : List CharOp :=
  let ss := sortAscByPos serverOps
  clientOps.filterMap (fun c =>
    let t := ss.foldl transformStep c
    if keepOp t then some t else none)

-- `_merge_changes_character_level`: sort both op lists descending by position,
-- apply server ops to the element list, transform client ops against the
-- (descending-sorted) server ops, apply them, and join.
def mergeChangesCharacterLevel (base current new : Chars) : Chars :=
  let serverOps := sortDescByPos (charOps base current)
  let clientOps := sortDescByPos (charOps base new)
  let r0 : List Chars := base.map (fun c => [c])
  let r1 := serverOps.foldl applyServerOp r0
  let tOps := transformCharacterOperations serverOps clientOps
  (tOps.foldl applyClientOp r1).flatten

def mergeStr (base current new : String) : String :=
  ⟨mergeChangesCharacterLevel base.data current.data new.data⟩

-- ### Store model (backend/database/db_interface.py).
-- The JSON file holds one record with `users` and `documents` dicts;
-- `datetime.now()` timestamps are modelled as a `now : Nat` parameter threaded
-- into the operations that read the clock.

structure UserR where
  username : String
  password : String
  documents : List String
deriving DecidableEq, Repr

structure DocumentR where
  id : String
  title : String
  data : String
  lastEdited : Nat
  users : List String
deriving DecidableEq, Repr

structure Store where
  users : List (String × UserR)
  documents : List (String × DocumentR)
deriving DecidableEq, Repr

def emptyStore : Store := ⟨[], []⟩

namespace Db

def get_user (username : String) (s : Store) : Option UserR :=
  alookup username s.users

def create_user (u : UserR) (s : Store) : Bool × Store :=
  match alookup u.username s.users with
  | some _ => (false, s)
  | none => (true, { s with users := s.users ++ [(u.username, u)] })

def update_user (u : UserR) (s : Store) : Bool × Store :=
  match alookup u.username s.users with
  | none => (false, s)
  | some _ => (true, { s with users := dictSet u.username u s.users })

def get_document (document_id : String) (s : Store) : Option DocumentR :=
  alookup document_id s.documents

-- Inner loop body of `create_document`: append the id to the named user's
-- document list when the user exists and does not already hold the id.
def addStep (document_id : String) (acc : List (String × UserR)) (uname : String) :
    List (String × UserR) :=
  match alookup uname acc with
  | some u =>
    if document_id ∈ u.documents then acc
    else dictSet uname { u with documents := u.documents ++ [document_id] } acc
  | none => acc

def addDocToUsers (document_id : String) (unames : List String)
    (us : List (String × UserR)) : List (String × UserR) :=
  unames.foldl (addStep document_id) us

def create_document (d : DocumentR) (s : Store) : Bool × Store :=
  match alookup d.id s.documents with
  | some _ => (false, s)
  | none =>
    (true, { users := addDocToUsers d.id d.users s.users,
             documents := s.documents ++ [(d.id, d)] })

def update_document (d : DocumentR) (s : Store) : Bool × Store :=
  match alookup d.id s.documents with
  | none => (false, s)
  | some _ => (true, { s with documents := dictSet d.id d s.documents })

-- Inner loop body of `delete_document`: drop the id from the named user's
-- document list (Python `list.remove` deletes the first occurrence).
def removeStep (document_id : String) (acc : List (String × UserR)) (uname : String) :
    List (String × UserR) :=
  match alookup uname acc with
  | some u =>
    if document_id ∈ u.documents then
      dictSet uname { u with documents := u.documents.erase document_id } acc
    else acc
  | none => acc

def removeDocFromUsers (document_id : String) (unames : List String)
    (us : List (String × UserR)) : List (String × UserR) :=
  unames.foldl (removeStep document_id) us

def delete_document (document_id : String) (s : Store) : Bool × Store :=
  match alookup document_id s.documents with
  | none => (false, s)
  | some d =>
    (true, { users := removeDocFromUsers document_id d.users s.users,
             documents := dictRemove document_id s.documents })

end Db

-- ### Business logic (backend/interactor/business_logic.py). Each operation
-- returns the result tuple of the Python method together with the store left
-- behind; blank-string checks mirror Python truthiness on `str`.

namespace BL

def register_user (username password : String) (s : Store) : (Bool × String) × Store :=
  if username = "" ∨ password = "" then
    ((false, "Username and password are required."), s)
  else
    match Db.get_user username s with
    | some _ => ((false, "Username already exists."), s)
    | none =>
      match Db.create_user ⟨username, password, []⟩ s with
      | (true, s1) => ((true, "User registered successfully."), s1)
      | (false, s1) => ((false, "Failed to register user."), s1)

def authenticate_user (username password : String) (s : Store) : Bool × String :=
  match Db.get_user username s with
  | none => (false, "User not found.")
  | some u =>
    if u.password ≠ password then (false, "Invalid password.")
    else (true, "Authentication successful.")

-- `create_document` mints `document_id` with uuid4 and reads the clock at
-- apply time; both nondeterminism sources are passed as parameters.
def create_document (title username document_id : String) (now : Nat) (s : Store) :
    (Bool × String × Option String) × Store :=
  match Db.get_user username s with
  | none => ((false, "User not found.", none), s)
  | some user =>
    let doc : DocumentR := ⟨document_id, title, "", now, [username]⟩
    match Db.create_document doc s with
    | (true, s1) =>
      let user1 := { user with documents := user.documents ++ [document_id] }
      ((true, "Document created successfully.", some document_id),
       (Db.update_user user1 s1).2)
    | (false, s1) => ((false, "Failed to create document.", none), s1)

def get_document (document_id username : String) (s : Store) :
    Bool × String × Option DocumentR :=
  match Db.get_document document_id s with
  | none => (false, "Document not found.", none)
  | some d =>
    if username ∈ d.users then (true, "Document retrieved successfully.", some d)
    else (false, "User does not have access to this document.", none)

def update_document_title (document_id title username : String) (now : Nat) (s : Store) :
    (Bool × String) × Store :=
  match get_document document_id username s with
  | (true, _, some d) =>
    let d1 := { d with title := title, lastEdited := now }
    match Db.update_document d1 s with
    | (true, s1) => ((true, "Document title updated successfully."), s1)
    | (false, s1) => ((false, "Failed to update document title."), s1)
  | (_, msg, _) => ((false, msg), s)

def delete_document (document_id username : String) (s : Store) : (Bool × String) × Store :=
  match get_document document_id username s with
  | (true, _, some _) =>
    match Db.delete_document document_id s with
    | (true, s1) => ((true, "Document deleted successfully."), s1)
    | (false, s1) => ((false, "Failed to delete document."), s1)
  | (_, msg, _) => ((false, msg), s)

def add_user_to_document (document_id username added_by : String) (s : Store) :
    (Bool × String) × Store :=
  match get_document document_id added_by s with
  | (true, _, some d) =>
    match Db.get_user username s with
    | none => ((false, "User to add not found."), s)
    | some user_to_add =>
      if username ∈ d.users then ((false, "User already has access to this document."), s)
      else
        let d1 := { d with users := d.users ++ [username] }
        match Db.update_document d1 s with
        | (true, s1) =>
          let s2 :=
            if document_id ∈ user_to_add.documents then s1
            else (Db.update_user
                   { user_to_add with documents := user_to_add.documents ++ [document_id] }
                   s1).2
          ((true, "User added to document successfully."), s2)
        | (false, s1) => ((false, "Failed to add user to document."), s1)
  | (_, msg, _) => ((false, msg), s)

def remove_user_from_document (document_id username removed_by : String) (s : Store) :
    (Bool × String) × Store :=
  match get_document document_id removed_by s with
  | (true, _, some d) =>
    if username ∉ d.users then ((false, "User does not have access to this document."), s)
    else
      let d1 := { d with users := d.users.erase username }
      match Db.update_document d1 s with
      | (true, s1) =>
        let s2 :=
          match Db.get_user username s1 with
          | some u =>
            if document_id ∈ u.documents then
              (Db.update_user { u with documents := u.documents.erase document_id } s1).2
            else s1
          | none => s1
        ((true, "User removed from document successfully."), s2)
      | (false, s1) => ((false, "Failed to remove user from document."), s1)
  | (_, msg, _) => ((false, msg), s)

def update_document_content (document_id content username : String) (now : Nat) (s : Store) :
    (Bool × String × Option String) × Store :=
  match get_document document_id username s with
  | (true, _, some d) =>
    let d1 := { d with data := content, lastEdited := now }
    match Db.update_document d1 s with
    | (true, s1) => ((true, "Document content updated successfully.", some content), s1)
    | (false, s1) => ((false, "Failed to update document content.", none), s1)
  | (_, msg, _) => ((false, msg, none), s)

-- Three-way-merge update. The `try`/`except` fallback of the Python method is
-- unreachable here because the embedded merge is total.
def update_document_content_with_merge (document_id new_content base_content username : String)
    (now : Nat) (s : Store) : (Bool × String × Option String) × Store :=
  match get_document document_id username s with
  | (true, _, some d) =>
    if base_content = d.data then
      let d1 := { d with data := new_content, lastEdited := now }
      match Db.update_document d1 s with
      | (true, s1) => ((true, "Document content updated successfully.", some new_content), s1)
      | (false, s1) => ((false, "Failed to update document content.", none), s1)
    else
      let merged := mergeStr base_content d.data new_content
      let d1 := { d with data := merged, lastEdited := now }
      match Db.update_document d1 s with
      | (true, s1) => ((true, "Document content merged successfully.", some merged), s1)
      | (false, s1) => ((false, "Failed to update document content.", none), s1)
  | (_, msg, _) => ((false, msg, none), s)

end BL

-- ### State-machine commands (section 6.2 payloads as dispatched by
-- `_apply_command`). The uuid and clock values produced at apply time are
-- carried as fields of the command.

inductive Command where
  | registerUser (username password : String)
  | createDocument (title username document_id : String) (now : Nat)
  | updateDocumentTitle (document_id title username : String) (now : Nat)
  | updateDocumentContent (document_id content : String) (base_content : Option String)
      (username : String) (now : Nat)
  | deleteDocument (document_id username : String)
  | addUserToDocument (document_id username added_by : String)
  | removeUserFromDocument (document_id username removed_by : String)
deriving DecidableEq, Repr

-- `_apply_command`: `update_document_content` takes the merge path exactly when
-- `base_content` is truthy (present and nonempty).
def applyCommand (c : Command) (s : Store) : Store :=
  match c with
  | .registerUser u p => (BL.register_user u p s).2
  | .createDocument t u id now => (BL.create_document t u id now s).2
  | .updateDocumentTitle id t u now => (BL.update_document_title id t u now s).2
  | .updateDocumentContent id content base u now =>
    match base with
    | some b =>
      if b = "" then (BL.update_document_content id content u now s).2
      else (BL.update_document_content_with_merge id content b u now s).2
    | none => (BL.update_document_content id content u now s).2
  | .deleteDocument id u => (BL.delete_document id u s).2
  | .addUserToDocument id u adder => (BL.add_user_to_document id u adder s).2
  | .removeUserFromDocument id u remover => (BL.remove_user_from_document id u remover s).2

def applyCommands (cmds : List Command) (s : Store) : Store :=
  cmds.foldl (fun st c => applyCommand c st) s

-- ### Consensus node (backend/distributed/server.py). Only the fields read or
-- written by the verified operations are modelled; `time.time()` reads are a
-- `now : Nat` parameter.

inductive Role where
  | follower
  | candidate
  | leader
deriving DecidableEq, Repr

structure SLogEntry where
  term : Nat
  index : Nat
  command : Command
  timestamp : Nat
deriving DecidableEq, Repr

structure NodeState where
  serverId : String
  role : Role
  currentTerm : Nat
  votedFor : Option String
  leaderId : Option String
  log : List SLogEntry
  commitIndex : Int
  lastApplied : Int
  peerAddresses : List String
  matchIndex : List (String × Int)
  lastHeartbeat : Nat
deriving DecidableEq, Repr

structure VoteRequest where
  server_id : String
  term : Nat
  last_log_index : Int
  last_log_term : Nat
deriving DecidableEq, Repr

structure VoteResponse where
  server_id : String
  term : Nat
  vote_granted : Bool
deriving DecidableEq, Repr

structure HeartbeatRequest where
  leader_id : String
  term : Nat
  commit_index : Int
  entries : List SLogEntry
deriving DecidableEq, Repr

structure HeartbeatResponse where
  server_id : String
  term : Nat
  success : Bool
  last_applied : Int
deriving DecidableEq, Repr

def become_follower (node : NodeState) (term : Nat) (now : Nat) : NodeState :=
  { node with role := .follower, currentTerm := term, votedFor := none, lastHeartbeat := now }

def lastLogTerm (log : List SLogEntry) : Nat :=
  match log.getLast? with
  | some e => e.term
  | none => 0

def is_log_up_to_date (log : List SLogEntry) (req : VoteRequest) : Bool :=
  if req.last_log_term = lastLogTerm log then
    decide ((log.length : Int) - 1 ≤ req.last_log_index)
  else decide (lastLogTerm log < req.last_log_term)

def requestVoteHandler (node : NodeState) (req : VoteRequest) (now : Nat) :
    VoteResponse × NodeState :=
  if req.term < node.currentTerm then
    (⟨node.serverId, node.currentTerm, false⟩, node)
  else
    let node1 := if node.currentTerm < req.term then become_follower node req.term now else node
    if (node1.votedFor = none ∨ node1.votedFor = some req.server_id)
        ∧ is_log_up_to_date node1.log req = true then
      let node2 := { node1 with votedFor := some req.server_id, lastHeartbeat := now }
      (⟨node2.serverId, node2.currentTerm, true⟩, node2)
    else
      (⟨node1.serverId, node1.currentTerm, false⟩, node1)

-- `SendHeartbeat`: an equal or higher term always steps the node down; the
-- entries are ignored (the source has a TODO there) and success is reported
-- without any prev-log consistency check.
def sendHeartbeatHandler (node : NodeState) (req : HeartbeatRequest) (now : Nat) :
    HeartbeatResponse × NodeState :=
  if req.term < node.currentTerm then
    (⟨node.serverId, node.currentTerm, false, node.lastApplied⟩, node)
  else
    let node1 := become_follower node req.term now
    let node2 := { node1 with leaderId := some req.leader_id, lastHeartbeat := now }
    let node3 :=
      if node2.commitIndex < req.commit_index then
        { node2 with commitIndex := min req.commit_index ((node2.log.length : Int) - 1) }
      else node2
    (⟨node3.serverId, node3.currentTerm, true, node3.lastApplied⟩, node3)

def matchIndexOf (node : NodeState) (peer : String) : Int :=
  (alookup peer node.matchIndex).getD (-1)

def replicatedCount (node : NodeState) (n : Nat) : Nat :=
  1 + (node.peerAddresses.filter (fun p => (n : Int) ≤ matchIndexOf node p)).length

-- Loop body of `_update_commit_index`: skip entries from other terms, stop at
-- the first entry replicated on a majority (`count > (peers + 1) / 2` over
-- Python floats is `2 * count > peers + 1` over integers).
def scanCommit (node : NodeState) : List Nat → Option Nat
  | [] => none
  | n :: rest =>
    match node.log.get? n with
    | none => scanCommit node rest
    | some e =>
      if e.term ≠ node.currentTerm then scanCommit node rest
      else if node.peerAddresses.length + 1 < 2 * replicatedCount node n then some n
      else scanCommit node rest

def updateCommitIndex (node : NodeState) : NodeState :=
  if node.role ≠ Role.leader then node
  else
    let start := (node.commitIndex + 1).toNat
    match scanCommit node (List.range' start (node.log.length - start)) with
    | some n => { node with commitIndex := (n : Int) }
    | none => node

def append_log_entry (node : NodeState) (cmd : Command) (now : Nat) : Nat × NodeState :=
  let entry : SLogEntry := ⟨node.currentTerm, node.log.length, cmd, now⟩
  let node1 := { node with log := node.log ++ [entry] }
  let node2 :=
    if node1.role = Role.leader ∧ node1.peerAddresses = [] then
      { node1 with commitIndex := (entry.index : Int) }
    else node1
  (entry.index, node2)

-- One iteration of the `_apply_committed_entries` loop body paired with the
-- store it applies to. The out-of-range branch is unreachable while
-- `lastApplied < commitIndex < log.length`.
def applyCommittedStep (node : NodeState) (s : Store) : NodeState × Store :=
  if node.lastApplied < node.commitIndex then
    let la := node.lastApplied + 1
    match node.log.get? la.toNat with
    | some e => ({ node with lastApplied := la }, applyCommand e.command s)
    | none => ({ node with lastApplied := la }, s)
  else (node, s)

-- Python `elif self.leader_id:` tests truthiness: `None` and `""` are falsy.
def truthyId : Option String → Bool
  | none => false
  | some l => l ≠ ""

-- Write dispatch of the node-level `register_user` (the same pattern is
-- repeated verbatim by every other write method). The leader branch appends
-- the command, then returns the business-logic result; the commit-wait loop is
-- a scheduling artifact and is elided.
def serverRegisterUser (node : NodeState) (s : Store) (username password : String)
    (now : Nat) : (Bool × String) × NodeState × Store :=
  if node.role = Role.leader then
    let node1 := (append_log_entry node (.registerUser username password) now).2
    let r := BL.register_user username password s
    (r.1, node1, r.2)
  else if truthyId node.leaderId then
    ((false, "Not the leader. Current leader: " ++ node.leaderId.getD ""), node, s)
  else
    ((false, "No leader available. Try again later."), node, s)

-- Write dispatch of the node-level `create_document` (identical non-leader
-- branches; the result triple carries a document id slot).
def serverCreateDocument (node : NodeState) (s : Store) (title username document_id : String)
    (now : Nat) : (Bool × String × Option String) × NodeState × Store :=
  if node.role = Role.leader then
    let node1 := (append_log_entry node (.createDocument title username document_id now) now).2
    let r := BL.create_document title username document_id now s
    (r.1, node1, r.2)
  else if truthyId node.leaderId then
    ((false, "Not the leader. Current leader: " ++ node.leaderId.getD "", none), node, s)
  else
    ((false, "No leader available. Try again later.", none), node, s)

-- ### Cross-reference integrity invariant (section 3 of the spec).

def Store.wf (s : Store) : Prop :=
  (keysOf s.users).Nodup ∧
  (keysOf s.documents).Nodup ∧
  (∀ k u, alookup k s.users = some u → u.username = k ∧ u.documents.Nodup ∧
    ∀ i ∈ u.documents, ∃ d, alookup i s.documents = some d ∧ k ∈ d.users) ∧
  (∀ k d, alookup k s.documents = some d → d.id = k ∧ d.users.Nodup ∧
    ∀ n ∈ d.users, ∃ u, alookup n s.users = some u ∧ k ∈ u.documents)

-- An index that `_update_commit_index` may commit: in range, tagged with the
-- current term, and replicated on a strict majority counting the leader.
def QualP (node : NodeState) (n : Nat) : Prop :=
  ∃ e, node.log.get? n = some e ∧ e.term = node.currentTerm ∧
    node.peerAddresses.length + 1 < 2 * replicatedCount node n

-- ### Concrete fixtures used to instantiate the theorems below.

def nodeC2x : NodeState :=
  { serverId := "s1", role := .leader, currentTerm := 1, votedFor := some "s1",
    leaderId := some "s1",
    log := [⟨1, 0, .registerUser "a" "p", 0⟩, ⟨1, 1, .registerUser "b" "p", 0⟩],
    commitIndex := -1, lastApplied := -1, peerAddresses := [], matchIndex := [],
    lastHeartbeat := 0 }

def nodeC2w : NodeState :=
  { serverId := "s1", role := .leader, currentTerm := 2, votedFor := some "s1",
    leaderId := some "s1",
    log := [⟨2, 0, .registerUser "a" "p", 0⟩],
    commitIndex := -1, lastApplied := -1, peerAddresses := [], matchIndex := [],
    lastHeartbeat := 0 }

def nodeC3 : NodeState :=
  { serverId := "s1", role := .leader, currentTerm := 3, votedFor := some "s1",
    leaderId := some "s1", log := [], commitIndex := -1, lastApplied := -1,
    peerAddresses := ["h2:50051"], matchIndex := [], lastHeartbeat := 0 }

def reqC3 : VoteRequest := ⟨"s2", 5, -1, 0⟩

def docC4 : DocumentR := ⟨"d1", "Notes", "old text", 0, ["alice"]⟩

def storeC4 : Store :=
  ⟨[("alice", ⟨"alice", "pw", ["d1"]⟩)], [("d1", docC4)]⟩

def nodeC6 : NodeState :=
  { serverId := "s1", role := .leader, currentTerm := 1, votedFor := some "s1",
    leaderId := some "s1", log := [], commitIndex := -1, lastApplied := -1,
    peerAddresses := [], matchIndex := [], lastHeartbeat := 0 }

def nodeC7a : NodeState :=
  { serverId := "s1", role := .follower, currentTerm := 4, votedFor := none,
    leaderId := some "s2", log := [], commitIndex := -1, lastApplied := -1,
    peerAddresses := ["h2:50051"], matchIndex := [], lastHeartbeat := 0 }

def nodeC7b : NodeState :=
  { serverId := "s1", role := .candidate, currentTerm := 4, votedFor := some "s1",
    leaderId := none, log := [], commitIndex := -1, lastApplied := -1,
    peerAddresses := ["h2:50051"], matchIndex := [], lastHeartbeat := 0 }

def nodeC9 : NodeState :=
  { serverId := "s1", role := .leader, currentTerm := 2, votedFor := some "s1",
    leaderId := some "s1", log := [], commitIndex := -1, lastApplied := -1,
    peerAddresses := ["h2:50051"], matchIndex := [], lastHeartbeat := 0 }

def reqC9 : HeartbeatRequest := ⟨"s2", 2, -1, []⟩

end Collab

namespace Collab

-- ## Theorems

-- ### Association-list lemmas.

theorem alookup_dictSet_self (k : String) (v : α) (l : List (String × α)) :
    alookup k (dictSet k v l) = some v := by
  induction l with
  | nil => simp [dictSet, alookup]
  | cons p rest ih =>
    obtain ⟨k', v'⟩ := p
    by_cases h : k' = k
    · simp [dictSet, h, alookup]
    · simp [dictSet, h, alookup, ih]

theorem alookup_dictSet_ne (k k' : String) (v : α) (l : List (String × α)) (h : k' ≠ k) :
    alookup k' (dictSet k v l) = alookup k' l := by
  induction l with
  | nil =>
    simp [dictSet, alookup, Ne.symm h]
  | cons p rest ih =>
    obtain ⟨k0, v0⟩ := p
    by_cases h0 : k0 = k
    · subst h0
      rw [dictSet, if_pos rfl, alookup, alookup, if_neg (Ne.symm h), if_neg (Ne.symm h)]
    · rw [dictSet, if_neg h0, alookup, alookup]
      by_cases h1 : k0 = k'
      · rw [if_pos h1, if_pos h1]
      · rw [if_neg h1, if_neg h1, ih]

theorem alookup_eq_none_iff (k : String) (l : List (String × α)) :
    alookup k l = none ↔ k ∉ keysOf l := by
  induction l with
  | nil => simp [alookup, keysOf]
  | cons p rest ih =>
    obtain ⟨k0, v0⟩ := p
    by_cases h0 : k0 = k
    · simp [alookup, h0, keysOf]
    · have hne : k ≠ k0 := Ne.symm h0
      simp [alookup, h0, keysOf, ih, hne]

theorem keysOf_cons (p : String × α) (l : List (String × α)) :
    keysOf (p :: l) = p.1 :: keysOf l := rfl

theorem alookup_isSome_iff (k : String) (l : List (String × α)) :
    (alookup k l).isSome ↔ k ∈ keysOf l := by
  rcases h : alookup k l with _ | v
  · simpa using (alookup_eq_none_iff k l).mp h
  · simp only [Option.isSome_some, true_iff]
    by_contra hk
    rw [(alookup_eq_none_iff k l).mpr hk] at h
    cases h

theorem keysOf_dictSet_of_isSome (k : String) (v : α) (l : List (String × α))
    (h : (alookup k l).isSome) : keysOf (dictSet k v l) = keysOf l := by
  induction l with
  | nil => simp [alookup] at h
  | cons p rest ih =>
    obtain ⟨k0, v0⟩ := p
    by_cases h0 : k0 = k
    · simp [dictSet, h0, keysOf]
    · rw [alookup, if_neg h0] at h
      rw [dictSet, if_neg h0, keysOf_cons, keysOf_cons, ih h]

theorem keysOf_dictSet_of_none (k : String) (v : α) (l : List (String × α))
    (h : alookup k l = none) : keysOf (dictSet k v l) = keysOf l ++ [k] := by
  induction l with
  | nil => simp [dictSet, keysOf]
  | cons p rest ih =>
    obtain ⟨k0, v0⟩ := p
    by_cases h0 : k0 = k
    · rw [alookup, if_pos h0] at h
      cases h
    · rw [alookup, if_neg h0] at h
      rw [dictSet, if_neg h0, keysOf_cons, keysOf_cons, ih h]
      rfl

theorem nodup_keysOf_dictSet (k : String) (v : α) (l : List (String × α))
    (h : (keysOf l).Nodup) : (keysOf (dictSet k v l)).Nodup := by
  rcases hk : alookup k l with _ | w
  · rw [keysOf_dictSet_of_none k v l hk]
    have : k ∉ keysOf l := (alookup_eq_none_iff k l).mp hk
    simp [List.nodup_append, h, this]
  · rw [keysOf_dictSet_of_isSome k v l (by rw [hk]; rfl)]
    exact h

theorem dictSet_dictSet (k : String) (v w : α) (l : List (String × α)) :
    dictSet k v (dictSet k w l) = dictSet k v l := by
  induction l with
  | nil => simp [dictSet]
  | cons p rest ih =>
    obtain ⟨k0, v0⟩ := p
    by_cases h0 : k0 = k
    · simp [dictSet, h0]
    · simp [dictSet, h0, ih]

theorem alookup_append_left (k : String) (l₁ l₂ : List (String × α)) (v : α)
    (h : alookup k l₁ = some v) : alookup k (l₁ ++ l₂) = some v := by
  induction l₁ with
  | nil => cases h
  | cons p rest ih =>
    obtain ⟨k0, v0⟩ := p
    by_cases h0 : k0 = k
    · rw [alookup, if_pos h0] at h
      simpa [alookup, h0] using h
    · rw [alookup, if_neg h0] at h
      simpa [alookup, h0] using ih h

theorem alookup_append_of_none (k : String) (l₁ l₂ : List (String × α))
    (h : alookup k l₁ = none) : alookup k (l₁ ++ l₂) = alookup k l₂ := by
  induction l₁ with
  | nil => rfl
  | cons p rest ih =>
    obtain ⟨k0, v0⟩ := p
    by_cases h0 : k0 = k
    · rw [alookup, if_pos h0] at h
      cases h
    · rw [alookup, if_neg h0] at h
      simpa [alookup, h0] using ih h

theorem alookup_append_cases (k : String) (l₁ l₂ : List (String × α)) (v : α)
    (h : alookup k (l₁ ++ l₂) = some v) :
    alookup k l₁ = some v ∨ (alookup k l₁ = none ∧ alookup k l₂ = some v) := by
  rcases h1 : alookup k l₁ with _ | w
  · right
    exact ⟨rfl, by rw [alookup_append_of_none k l₁ l₂ h1] at h; exact h⟩
  · left
    rw [alookup_append_left k l₁ l₂ w h1] at h
    exact h

theorem alookup_singleton (k u : String) (v : α) :
    alookup k [(u, v)] = if u = k then some v else none := rfl

theorem alookup_dictRemove_ne (k k' : String) (l : List (String × α)) (h : k' ≠ k) :
    alookup k' (dictRemove k l) = alookup k' l := by
  induction l with
  | nil => rfl
  | cons p rest ih =>
    obtain ⟨k0, v0⟩ := p
    by_cases h0 : k0 = k
    · subst h0
      rw [dictRemove, if_pos rfl, alookup, if_neg (Ne.symm h)]
    · rw [dictRemove, if_neg h0, alookup, alookup]
      by_cases h1 : k0 = k'
      · rw [if_pos h1, if_pos h1]
      · rw [if_neg h1, if_neg h1, ih]

theorem keysOf_dictRemove_sublist (k : String) (l : List (String × α)) :
    List.Sublist (keysOf (dictRemove k l)) (keysOf l) := by
  induction l with
  | nil => simp [dictRemove, keysOf]
  | cons p rest ih =>
    obtain ⟨k0, v0⟩ := p
    by_cases h0 : k0 = k
    · simp only [dictRemove, if_pos h0, keysOf, List.map_cons]
      exact List.sublist_cons_of_sublist _ (List.Sublist.refl _)
    · simp only [dictRemove, if_neg h0, keysOf, List.map_cons]
      exact List.Sublist.cons₂ _ ih

theorem alookup_dictRemove_self (k : String) (l : List (String × α))
    (h : (keysOf l).Nodup) : alookup k (dictRemove k l) = none := by
  induction l with
  | nil => rfl
  | cons p rest ih =>
    obtain ⟨k0, v0⟩ := p
    simp only [keysOf, List.map_cons, List.nodup_cons] at h
    by_cases h0 : k0 = k
    · subst h0
      rw [dictRemove, if_pos rfl]
      exact (alookup_eq_none_iff k0 rest).mpr h.1
    · rw [dictRemove, if_neg h0, alookup, if_neg h0]
      exact ih h.2

theorem alookup_dictRemove_some (k k' : String) (l : List (String × α)) (v : α)
    (hn : (keysOf l).Nodup) (h : alookup k' (dictRemove k l) = some v) :
    k' ≠ k ∧ alookup k' l = some v := by
  by_cases he : k' = k
  · subst he
    rw [alookup_dictRemove_self k' l hn] at h
    cases h
  · exact ⟨he, by rw [alookup_dictRemove_ne k k' l he] at h; exact h⟩

/-- C10: for every store state, `register_user` with an empty username or an
empty password returns failure with the message
"Username and password are required." and leaves the store unchanged. -/
theorem register_blank_rejected (s : Store) (username password : String)
    (h : username = "" ∨ password = "") :
    BL.register_user username password s
      = ((false, "Username and password are required."), s) := by
  unfold BL.register_user
  simp [h]

theorem register_blank_rejected_witness :
    ("alice" = "" ∨ "" = "") ∧
    BL.register_user "alice" "" emptyStore
      = ((false, "Username and password are required."), emptyStore) :=
  ⟨Or.inr rfl, register_blank_rejected emptyStore "alice" "" (Or.inr rfl)⟩

/-- C4: when the submitted base content equals the document's current data,
`update_document_content_with_merge` skips the merge transform (the fast-path
branch, observable in the success message), stores `new_content` as the
document data, and returns `new_content` as the merged output. -/
theorem merge_fast_path (s : Store) (document_id username new_content base_content : String)
    (d : DocumentR) (now : Nat)
    (hd : alookup document_id s.documents = some d) (hid : d.id = document_id)
    (ha : username ∈ d.users) (hbase : base_content = d.data) :
    BL.update_document_content_with_merge document_id new_content base_content username now s =
      ((true, "Document content updated successfully.", some new_content),
       { s with documents :=
           dictSet document_id { d with data := new_content, lastEdited := now } s.documents }) := by
  unfold BL.update_document_content_with_merge BL.get_document Db.get_document
    Db.update_document
  rw [hd]
  simp only [ha, if_true, hbase]
  simp [hid, hd]

theorem merge_fast_path_witness :
    alookup "d1" storeC4.documents = some docC4 ∧ docC4.id = "d1" ∧
    "alice" ∈ docC4.users ∧ "old text" = docC4.data ∧
    BL.update_document_content_with_merge "d1" "new text" "old text" "alice" 7 storeC4 =
      ((true, "Document content updated successfully.", some "new text"),
       { storeC4 with documents :=
           (dictSet "d1" { docC4 with data := "new text", lastEdited := 7 } storeC4.documents) }) :=
  ⟨rfl, rfl, by decide, rfl,
   merge_fast_path storeC4 "d1" "alice" "new text" "old text" docC4 7 rfl rfl (by decide) rfl⟩

/-- C6: on a leader whose `peer_addresses` list is empty, appending a log entry
immediately sets `commit_index` to the entry's index; starting from an empty
log the appended entry gives `log_length = 1`, `commit_index = 0`, and one
apply tick sets `last_applied = 0`. -/
theorem singleton_leader_commit (node : NodeState) (s : Store) (cmd : Command) (now : Nat)
    (hL : node.role = Role.leader) (hP : node.peerAddresses = [])
    (hlog : node.log = []) (hla : node.lastApplied = -1) :
    (append_log_entry node cmd now).2.log.length = 1 ∧
    (append_log_entry node cmd now).2.commitIndex = 0 ∧
    (applyCommittedStep (append_log_entry node cmd now).2 s).1.lastApplied = 0 := by
  unfold append_log_entry applyCommittedStep
  simp [hL, hP, hlog, hla]

theorem singleton_leader_commit_witness :
    nodeC6.role = Role.leader ∧ nodeC6.peerAddresses = [] ∧ nodeC6.log = [] ∧
    nodeC6.lastApplied = -1 ∧
    (append_log_entry nodeC6 (.registerUser "a" "p") 3).2.log.length = 1 ∧
    (append_log_entry nodeC6 (.registerUser "a" "p") 3).2.commitIndex = 0 ∧
    (applyCommittedStep (append_log_entry nodeC6 (.registerUser "a" "p") 3).2
      emptyStore).1.lastApplied = 0 := by
  refine ⟨rfl, rfl, rfl, rfl, ?_⟩
  exact singleton_leader_commit nodeC6 emptyStore (.registerUser "a" "p") 3 rfl rfl rfl rfl

/-- C7: a write submitted on a node that is not leader fails without touching
the log or the store: when a (truthy) `leader_id` is known the message names
that leader, otherwise it reports that no leader is available; the node state
and store are returned unchanged in both cases, for both modelled write
operations. -/
theorem non_leader_write_rejected (node : NodeState) (s : Store)
    (username password title document_id : String) (now : Nat)
    (h : node.role ≠ Role.leader) :
    (truthyId node.leaderId = true →
      serverRegisterUser node s username password now
        = ((false, "Not the leader. Current leader: " ++ node.leaderId.getD ""), node, s) ∧
      serverCreateDocument node s title username document_id now
        = ((false, "Not the leader. Current leader: " ++ node.leaderId.getD "", none), node, s)) ∧
    (truthyId node.leaderId = false →
      serverRegisterUser node s username password now
        = ((false, "No leader available. Try again later."), node, s) ∧
      serverCreateDocument node s title username document_id now
        = ((false, "No leader available. Try again later.", none), node, s)) := by
  unfold serverRegisterUser serverCreateDocument
  constructor <;> intro ht <;> simp [h, ht]

theorem non_leader_write_rejected_witness :
    (nodeC7a.role ≠ Role.leader ∧ truthyId nodeC7a.leaderId = true ∧
      serverRegisterUser nodeC7a emptyStore "u" "p" 0
        = ((false, "Not the leader. Current leader: s2"), nodeC7a, emptyStore)) ∧
    (nodeC7b.role ≠ Role.leader ∧ truthyId nodeC7b.leaderId = false ∧
      serverRegisterUser nodeC7b emptyStore "u" "p" 0
        = ((false, "No leader available. Try again later."), nodeC7b, emptyStore)) := by
  refine ⟨⟨by decide, rfl, ?_⟩, ⟨by decide, rfl, ?_⟩⟩
  · exact ((non_leader_write_rejected nodeC7a emptyStore "u" "p" "t" "d" 0 (by decide)).1 rfl).1
  · exact ((non_leader_write_rejected nodeC7b emptyStore "u" "p" "t" "d" 0 (by decide)).2 rfl).1

/-- C9: a `SendHeartbeat` whose term is at least the node's current term makes
the node a follower, clears `voted_for`, adopts the request term, records the
sender as leader, resets the election timer, and reports success with the new
term, with no prev-log consistency check (this holds for every log and every
entries payload, including the equal-term case on a current leader). -/
theorem heartbeat_geq_term_stepdown (node : NodeState) (req : HeartbeatRequest) (now : Nat)
    (h : node.currentTerm ≤ req.term) :
    (sendHeartbeatHandler node req now).2.role = Role.follower ∧
    (sendHeartbeatHandler node req now).2.votedFor = none ∧
    (sendHeartbeatHandler node req now).2.currentTerm = req.term ∧
    (sendHeartbeatHandler node req now).2.leaderId = some req.leader_id ∧
    (sendHeartbeatHandler node req now).2.lastHeartbeat = now ∧
    (sendHeartbeatHandler node req now).1.success = true ∧
    (sendHeartbeatHandler node req now).1.term = req.term := by
  unfold sendHeartbeatHandler become_follower
  have hn : ¬ req.term < node.currentTerm := not_lt.mpr h
  simp only [hn, if_false]
  split <;> simp

theorem keysOf_append (l₁ l₂ : List (String × α)) :
    keysOf (l₁ ++ l₂) = keysOf l₁ ++ keysOf l₂ := by
  simp [keysOf]

theorem keysOf_removeStep (document_id u0 : String) (us : List (String × UserR)) :
    keysOf (Db.removeStep document_id us u0) = keysOf us := by
  unfold Db.removeStep
  rcases hu : alookup u0 us with _ | u
  · rfl
  · by_cases hm : document_id ∈ u.documents
    · simp only [hm, if_true]
      exact keysOf_dictSet_of_isSome u0 _ us (by rw [hu]; rfl)
    · simp [hm]

theorem userr_erase_eta (u : UserR) (document_id : String)
    (hm : document_id ∉ u.documents) :
    { u with documents := u.documents.erase document_id } = u := by
  cases u
  simp only [UserR.mk.injEq, true_and]
  exact List.erase_of_not_mem hm

theorem alookup_removeStep (document_id u0 k : String) (us : List (String × UserR)) :
    alookup k (Db.removeStep document_id us u0) =
      if k = u0 then
        (alookup k us).map (fun u => { u with documents := u.documents.erase document_id })
      else alookup k us := by
  unfold Db.removeStep
  by_cases hk : k = u0
  · subst hk
    rcases hu : alookup k us with _ | u
    · simp [hu]
    · by_cases hm : document_id ∈ u.documents
      · simp [hm, alookup_dictSet_self, hu]
      · simp [hm, hu, userr_erase_eta u document_id hm]
  · rcases hu : alookup u0 us with _ | u
    · simp [hk]
    · by_cases hm : document_id ∈ u.documents
      · simp [hm, hk, alookup_dictSet_ne u0 k _ us hk]
      · simp [hm, hk]

theorem keysOf_removeDocFromUsers (document_id : String) (unames : List String) :
    ∀ us : List (String × UserR),
      keysOf (Db.removeDocFromUsers document_id unames us) = keysOf us := by
  induction unames with
  | nil => intro us; rfl
  | cons u0 rest ih =>
    intro us
    have hstep : Db.removeDocFromUsers document_id (u0 :: rest) us
        = Db.removeDocFromUsers document_id rest (Db.removeStep document_id us u0) := rfl
    rw [hstep, ih, keysOf_removeStep]

theorem alookup_removeDocFromUsers (document_id : String) (unames : List String) :
    ∀ (us : List (String × UserR)) (k : String), unames.Nodup →
      alookup k (Db.removeDocFromUsers document_id unames us) =
        (alookup k us).map (fun u =>
          if k ∈ unames then { u with documents := u.documents.erase document_id } else u) := by
  induction unames with
  | nil =>
    intro us k _
    rw [show Db.removeDocFromUsers document_id [] us = us from rfl]
    rcases alookup k us with _ | u <;> simp
  | cons u0 rest ih =>
    intro us k hn
    obtain ⟨h0, hr⟩ := List.nodup_cons.mp hn
    have hstep : Db.removeDocFromUsers document_id (u0 :: rest) us
        = Db.removeDocFromUsers document_id rest (Db.removeStep document_id us u0) := rfl
    rw [hstep, ih _ _ hr, alookup_removeStep]
    by_cases hk : k = u0
    · subst hk
      have hkr : k ∉ rest := h0
      rcases alookup k us with _ | u
      · simp
      · simp [hkr]
    · rcases alookup k us with _ | u
      · simp
      · simp [hk, List.mem_cons]

-- ### Preservation of the cross-reference invariant by each command.

theorem wf_register_user (username password : String) (s : Store) (h : s.wf) :
    ((BL.register_user username password s).2).wf := by
  obtain ⟨hnu, hnd, hu, hd⟩ := h
  by_cases hb : username = "" ∨ password = ""
  · simp only [BL.register_user, if_pos hb]
    exact ⟨hnu, hnd, hu, hd⟩
  · rcases hg : alookup username s.users with _ | u
    · simp only [BL.register_user, if_neg hb, Db.get_user, hg, Db.create_user]
      have hnotin : username ∉ keysOf s.users := (alookup_eq_none_iff username s.users).mp hg
      refine ⟨?_, hnd, ?_, ?_⟩
      · rw [keysOf_append]
        rw [List.nodup_append]
        refine ⟨hnu, List.nodup_singleton username, ?_⟩
        intro x hx hx2
        simp only [keysOf, List.map_cons, List.map_nil, List.mem_singleton] at hx2
        subst hx2
        exact hnotin hx
      · intro k u' hk
        rcases alookup_append_cases k s.users _ u' hk with hk1 | ⟨hk1, hk2⟩
        · obtain ⟨he, hnodup, hlink⟩ := hu k u' hk1
          exact ⟨he, hnodup, hlink⟩
        · rw [alookup_singleton] at hk2
          by_cases hku : username = k
          · rw [if_pos hku] at hk2
            cases hk2
            exact ⟨hku, List.nodup_nil, by intro i hi; cases hi⟩
          · rw [if_neg hku] at hk2
            cases hk2
      · intro k d hk
        obtain ⟨he, hnodup, hlink⟩ := hd k d hk
        refine ⟨he, hnodup, ?_⟩
        intro n hn
        obtain ⟨u', hu', hmem⟩ := hlink n hn
        exact ⟨u', alookup_append_left n s.users _ u' hu', hmem⟩
    · simp only [BL.register_user, if_neg hb, Db.get_user, hg]
      exact ⟨hnu, hnd, hu, hd⟩

-- Updating one document binding without touching its id or its user set
-- preserves the invariant (title and content updates, including the merge).
theorem wf_update_doc_same_users (s : Store) (k : String) (d d' : DocumentR) (h : s.wf)
    (hdk : alookup k s.documents = some d) (hid : d'.id = d.id) (hus : d'.users = d.users) :
    (Store.mk s.users (dictSet k d' s.documents)).wf := by
  obtain ⟨hnu, hnd, hu, hd⟩ := h
  refine ⟨hnu, ?_, ?_, ?_⟩
  · exact nodup_keysOf_dictSet k d' s.documents hnd
  · intro k' u' hk'
    obtain ⟨he, hnodup, hlink⟩ := hu k' u' hk'
    refine ⟨he, hnodup, ?_⟩
    intro i hi
    obtain ⟨dd, hdd, hmem⟩ := hlink i hi
    by_cases hik : i = k
    · subst hik
      rw [hdd] at hdk
      cases hdk
      exact ⟨d', alookup_dictSet_self i d' s.documents, by rw [hus]; exact hmem⟩
    · exact ⟨dd, by rw [alookup_dictSet_ne k i d' s.documents hik]; exact hdd, hmem⟩
  · intro k' dd hk'
    by_cases hik : k' = k
    · subst hik
      rw [alookup_dictSet_self k' d' s.documents] at hk'
      cases hk'
      obtain ⟨he, hnodup, hlink⟩ := hd k' d hdk
      refine ⟨by rw [hid, he], by rw [hus]; exact hnodup, ?_⟩
      intro n hn
      rw [hus] at hn
      exact hlink n hn
    · rw [alookup_dictSet_ne k k' d' s.documents hik] at hk'
      exact hd k' dd hk'

theorem wf_update_document_title (document_id title username : String) (now : Nat)
    (s : Store) (h : s.wf) :
    ((BL.update_document_title document_id title username now s).2).wf := by
  rcases hg : alookup document_id s.documents with _ | d
  · simp only [BL.update_document_title, BL.get_document, Db.get_document, hg]
    exact h
  · by_cases ha : username ∈ d.users
    · have hid : d.id = document_id := (h.2.2.2 document_id d hg).1
      simp only [BL.update_document_title, BL.get_document, Db.get_document, hg, ha, if_true,
        Db.update_document, hid, hg]
      exact wf_update_doc_same_users s document_id d _ h hg hid.symm rfl
    · simp only [BL.update_document_title, BL.get_document, Db.get_document, hg, ha, if_false]
      exact h

theorem wf_update_document_content (document_id content username : String) (now : Nat)
    (s : Store) (h : s.wf) :
    ((BL.update_document_content document_id content username now s).2).wf := by
  rcases hg : alookup document_id s.documents with _ | d
  · simp only [BL.update_document_content, BL.get_document, Db.get_document, hg]
    exact h
  · by_cases ha : username ∈ d.users
    · have hid : d.id = document_id := (h.2.2.2 document_id d hg).1
      simp only [BL.update_document_content, BL.get_document, Db.get_document, hg, ha, if_true,
        Db.update_document, hid, hg]
      exact wf_update_doc_same_users s document_id d _ h hg hid.symm rfl
    · simp only [BL.update_document_content, BL.get_document, Db.get_document, hg, ha, if_false]
      exact h

theorem wf_update_document_content_with_merge
    (document_id new_content base_content username : String) (now : Nat)
    (s : Store) (h : s.wf) :
    ((BL.update_document_content_with_merge document_id new_content base_content username
        now s).2).wf := by
  rcases hg : alookup document_id s.documents with _ | d
  · simp only [BL.update_document_content_with_merge, BL.get_document, Db.get_document, hg]
    exact h
  · by_cases ha : username ∈ d.users
    · have hid : d.id = document_id := (h.2.2.2 document_id d hg).1
      by_cases hb : base_content = d.data
      · simp only [BL.update_document_content_with_merge, BL.get_document, Db.get_document, hg,
          ha, if_true, hb, Db.update_document, hid]
        exact wf_update_doc_same_users s document_id d _ h hg hid.symm rfl
      · simp only [BL.update_document_content_with_merge, BL.get_document, Db.get_document, hg,
          ha, if_true, hb, if_false, Db.update_document, hid]
        exact wf_update_doc_same_users s document_id d _ h hg hid.symm rfl
    · simp only [BL.update_document_content_with_merge, BL.get_document, Db.get_document, hg,
        ha, if_false]
      exact h

theorem wf_delete_document (document_id username : String) (s : Store) (h : s.wf) :
    ((BL.delete_document document_id username s).2).wf := by
  rcases hg : alookup document_id s.documents with _ | d
  · simp only [BL.delete_document, BL.get_document, Db.get_document, hg]
    exact h
  · by_cases ha : username ∈ d.users
    · obtain ⟨hnu, hnd, hu, hd⟩ := h
      obtain ⟨hid, hdnodup, hdlink⟩ := hd document_id d hg
      simp only [BL.delete_document, BL.get_document, Db.get_document, hg, ha, if_true,
        Db.delete_document]
      refine ⟨?_, ?_, ?_, ?_⟩
      · rw [keysOf_removeDocFromUsers]
        exact hnu
      · exact hnd.sublist (keysOf_dictRemove_sublist document_id s.documents)
      · intro k u' hk'
        rw [alookup_removeDocFromUsers document_id d.users s.users k hdnodup] at hk'
        rcases hu0 : alookup k s.users with _ | u0
        · rw [hu0] at hk'
          cases hk'
        · rw [hu0, Option.map_some'] at hk'
          injection hk' with hk'
          subst hk'
          obtain ⟨he, hnodup0, hlink0⟩ := hu k u0 hu0
          by_cases hkd : k ∈ d.users
          · rw [if_pos hkd]
            refine ⟨he, hnodup0.erase document_id, ?_⟩
            intro i hi
            have hi1 : i ≠ document_id ∧ i ∈ u0.documents :=
              (List.Nodup.mem_erase_iff hnodup0).mp hi
            obtain ⟨dd, hdd, hmem⟩ := hlink0 i hi1.2
            refine ⟨dd, ?_, hmem⟩
            rw [alookup_dictRemove_ne document_id i s.documents hi1.1]
            exact hdd
          · rw [if_neg hkd]
            refine ⟨he, hnodup0, ?_⟩
            intro i hi
            obtain ⟨dd, hdd, hmem⟩ := hlink0 i hi
            have hne : i ≠ document_id := by
              intro hie
              subst hie
              rw [hg] at hdd
              cases hdd
              exact hkd hmem
            refine ⟨dd, ?_, hmem⟩
            rw [alookup_dictRemove_ne document_id i s.documents hne]
            exact hdd
      · intro k' dd hk'
        obtain ⟨hne, hold⟩ := alookup_dictRemove_some document_id k' s.documents dd hnd hk'
        obtain ⟨hide, hnodupd, hlinkd⟩ := hd k' dd hold
        refine ⟨hide, hnodupd, ?_⟩
        intro n hn
        obtain ⟨u0, hu0, hmem⟩ := hlinkd n hn
        rw [alookup_removeDocFromUsers document_id d.users s.users n hdnodup, hu0,
          Option.map_some']
        by_cases hnd2 : n ∈ d.users
        · refine ⟨_, rfl, ?_⟩
          rw [if_pos hnd2]
          exact (List.mem_erase_of_ne hne).mpr hmem
        · refine ⟨_, rfl, ?_⟩
          rw [if_neg hnd2]
          exact hmem
    · simp only [BL.delete_document, BL.get_document, Db.get_document, hg, ha, if_false]
      exact h

theorem nodup_append_singleton (l : List String) (x : String) (h : l.Nodup) (hx : x ∉ l) :
    (l ++ [x]).Nodup := by
  simp [List.nodup_append, h, hx]

theorem wf_add_user_to_document (document_id username added_by : String) (s : Store)
    (h : s.wf) : ((BL.add_user_to_document document_id username added_by s).2).wf := by
  rcases hg : alookup document_id s.documents with _ | d
  · simp only [BL.add_user_to_document, BL.get_document, Db.get_document, hg]
    exact h
  · by_cases ha : added_by ∈ d.users
    · rcases hgu : alookup username s.users with _ | user
      · simp only [BL.add_user_to_document, BL.get_document, Db.get_document, hg, ha, if_true,
          Db.get_user, hgu]
        exact h
      · by_cases hin : username ∈ d.users
        · simp only [BL.add_user_to_document, BL.get_document, Db.get_document, hg, ha, if_true,
            Db.get_user, hgu, hin, if_true]
          exact h
        · obtain ⟨hnu, hnd, hu, hd⟩ := h
          obtain ⟨hid, hdnodup, hdlink⟩ := hd document_id d hg
          obtain ⟨hun, hunodup, hulink⟩ := hu username user hgu
          have hnotin : document_id ∉ user.documents := by
            intro hmem
            obtain ⟨dd, hdd, hmm⟩ := hulink document_id hmem
            rw [hg] at hdd
            cases hdd
            exact hin hmm
          simp only [BL.add_user_to_document, BL.get_document, Db.get_document, hg, ha, if_true,
            Db.get_user, hgu, hin, if_false, Db.update_document, hid, hg, hnotin,
            Db.update_user, hun]
          refine ⟨nodup_keysOf_dictSet username _ s.users hnu,
            nodup_keysOf_dictSet document_id _ s.documents hnd, ?_, ?_⟩
          · intro k u' hk'
            by_cases hk : k = username
            · subst hk
              rw [alookup_dictSet_self] at hk'
              cases hk'
              refine ⟨rfl, nodup_append_singleton _ _ hunodup hnotin, ?_⟩
              intro i hi
              rcases List.mem_append.mp hi with hi | hi
              · have hik : i ≠ document_id := fun he => hnotin (he ▸ hi)
                obtain ⟨dd, hdd, hmm⟩ := hulink i hi
                refine ⟨dd, ?_, hmm⟩
                rw [alookup_dictSet_ne document_id i _ _ hik]
                exact hdd
              · have hieq : i = document_id := by simp_all
                subst hieq
                refine ⟨_, alookup_dictSet_self i _ s.documents, ?_⟩
                simp
            · rw [alookup_dictSet_ne username k _ _ hk] at hk'
              obtain ⟨he, hnodup0, hlink0⟩ := hu k u' hk'
              refine ⟨he, hnodup0, ?_⟩
              intro i hi
              obtain ⟨dd, hdd, hmm⟩ := hlink0 i hi
              by_cases hik : i = document_id
              · subst hik
                rw [hg] at hdd
                cases hdd
                refine ⟨_, alookup_dictSet_self i _ s.documents, ?_⟩
                simp [hmm]
              · refine ⟨dd, ?_, hmm⟩
                rw [alookup_dictSet_ne document_id i _ _ hik]
                exact hdd
          · intro k' dd hk'
            by_cases hk : k' = document_id
            · subst hk
              rw [alookup_dictSet_self] at hk'
              cases hk'
              refine ⟨rfl, nodup_append_singleton _ _ hdnodup hin, ?_⟩
              intro n hn
              rcases List.mem_append.mp hn with hn | hn
              · obtain ⟨u0, hu0, hmm⟩ := hdlink n hn
                have hnu2 : n ≠ username := fun he => hin (he ▸ hn)
                refine ⟨u0, ?_, hmm⟩
                rw [alookup_dictSet_ne username n _ _ hnu2]
                exact hu0
              · have hneq : n = username := by simp_all
                subst hneq
                refine ⟨_, alookup_dictSet_self n _ s.users, ?_⟩
                simp
            · rw [alookup_dictSet_ne document_id k' _ _ hk] at hk'
              obtain ⟨hide, hnodupd, hlinkd⟩ := hd k' dd hk'
              refine ⟨hide, hnodupd, ?_⟩
              intro n hn
              obtain ⟨u0, hu0, hmm⟩ := hlinkd n hn
              by_cases hnu2 : n = username
              · subst hnu2
                rw [hgu] at hu0
                cases hu0
                refine ⟨_, alookup_dictSet_self n _ s.users, ?_⟩
                simp [hmm]
              · refine ⟨u0, ?_, hmm⟩
                rw [alookup_dictSet_ne username n _ _ hnu2]
                exact hu0
    · simp only [BL.add_user_to_document, BL.get_document, Db.get_document, hg, ha, if_false]
      exact h

theorem wf_remove_user_from_document (document_id username removed_by : String) (s : Store)
    (h : s.wf) : ((BL.remove_user_from_document document_id username removed_by s).2).wf := by
  rcases hg : alookup document_id s.documents with _ | d
  · simp only [BL.remove_user_from_document, BL.get_document, Db.get_document, hg]
    exact h
  · by_cases ha : removed_by ∈ d.users
    · by_cases hin : username ∈ d.users
      · obtain ⟨hnu, hnd, hu, hd⟩ := h
        obtain ⟨hid, hdnodup, hdlink⟩ := hd document_id d hg
        obtain ⟨user, hgu, hdocin⟩ := hdlink username hin
        obtain ⟨hun, hunodup, hulink⟩ := hu username user hgu
        simp only [BL.remove_user_from_document, BL.get_document, Db.get_document, hg, ha,
          if_true, hin, not_true_eq_false, if_false, Db.update_document, hid, hg, Db.get_user,
          hgu, hdocin, if_true, Db.update_user, hun]
        refine ⟨nodup_keysOf_dictSet username _ s.users hnu,
          nodup_keysOf_dictSet document_id _ s.documents hnd, ?_, ?_⟩
        · intro k u' hk'
          by_cases hk : k = username
          · subst hk
            rw [alookup_dictSet_self] at hk'
            cases hk'
            refine ⟨rfl, hunodup.erase document_id, ?_⟩
            intro i hi
            have hi1 : i ≠ document_id ∧ i ∈ user.documents :=
              (List.Nodup.mem_erase_iff hunodup).mp hi
            obtain ⟨dd, hdd, hmm⟩ := hulink i hi1.2
            refine ⟨dd, ?_, hmm⟩
            rw [alookup_dictSet_ne document_id i _ _ hi1.1]
            exact hdd
          · rw [alookup_dictSet_ne username k _ _ hk] at hk'
            obtain ⟨he, hnodup0, hlink0⟩ := hu k u' hk'
            refine ⟨he, hnodup0, ?_⟩
            intro i hi
            obtain ⟨dd, hdd, hmm⟩ := hlink0 i hi
            by_cases hik : i = document_id
            · subst hik
              rw [hg] at hdd
              cases hdd
              refine ⟨_, alookup_dictSet_self i _ s.documents, ?_⟩
              exact (List.mem_erase_of_ne hk).mpr hmm
            · refine ⟨dd, ?_, hmm⟩
              rw [alookup_dictSet_ne document_id i _ _ hik]
              exact hdd
        · intro k' dd hk'
          by_cases hk : k' = document_id
          · subst hk
            rw [alookup_dictSet_self] at hk'
            cases hk'
            refine ⟨rfl, hdnodup.erase username, ?_⟩
            intro n hn
            have hn1 : n ≠ username ∧ n ∈ d.users :=
              (List.Nodup.mem_erase_iff hdnodup).mp hn
            obtain ⟨u0, hu0, hmm⟩ := hdlink n hn1.2
            refine ⟨u0, ?_, hmm⟩
            rw [alookup_dictSet_ne username n _ _ hn1.1]
            exact hu0
          · rw [alookup_dictSet_ne document_id k' _ _ hk] at hk'
            obtain ⟨hide, hnodupd, hlinkd⟩ := hd k' dd hk'
            refine ⟨hide, hnodupd, ?_⟩
            intro n hn
            obtain ⟨u0, hu0, hmm⟩ := hlinkd n hn
            by_cases hnu2 : n = username
            · subst hnu2
              rw [hgu] at hu0
              cases hu0
              refine ⟨_, alookup_dictSet_self n _ s.users, ?_⟩
              exact (List.mem_erase_of_ne hk).mpr hmm
            · refine ⟨u0, ?_, hmm⟩
              rw [alookup_dictSet_ne username n _ _ hnu2]
              exact hu0
      · simp only [BL.remove_user_from_document, BL.get_document, Db.get_document, hg, ha,
          if_true, hin, not_false_eq_true, if_true]
        exact h
    · simp only [BL.remove_user_from_document, BL.get_document, Db.get_document, hg, ha,
        if_false]
      exact h

theorem wf_create_document (title username document_id : String) (now : Nat) (s : Store)
    (h : s.wf) : ((BL.create_document title username document_id now s).2).wf := by
  rcases hgu : alookup username s.users with _ | user
  · simp only [BL.create_document, Db.get_user, hgu]
    exact h
  · rcases hgd : alookup document_id s.documents with _ | dOld
    · obtain ⟨hnu, hnd, hu, hd⟩ := h
      obtain ⟨hun, hunodup, hulink⟩ := hu username user hgu
      have hnotin : document_id ∉ user.documents := by
        intro hmem
        obtain ⟨dd, hdd, -⟩ := hulink document_id hmem
        rw [hgd] at hdd
        cases hdd
      have hfresh : document_id ∉ keysOf s.documents :=
        (alookup_eq_none_iff document_id s.documents).mp hgd
      simp only [BL.create_document, Db.get_user, hgu, Db.create_document, hgd,
        Db.addDocToUsers, List.foldl_cons, List.foldl_nil, Db.addStep, hnotin, if_false,
        Db.update_user, hun, alookup_dictSet_self, dictSet_dictSet]
      refine ⟨nodup_keysOf_dictSet username _ s.users hnu, ?_, ?_, ?_⟩
      · rw [keysOf_append]
        refine nodup_append_singleton _ _ hnd ?_
        simpa [keysOf] using hfresh
      · intro k u' hk'
        by_cases hk : k = username
        · subst hk
          rw [alookup_dictSet_self] at hk'
          cases hk'
          refine ⟨rfl, nodup_append_singleton _ _ hunodup hnotin, ?_⟩
          intro i hi
          rcases List.mem_append.mp hi with hi | hi
          · obtain ⟨dd, hdd, hmm⟩ := hulink i hi
            exact ⟨dd, alookup_append_left i s.documents _ dd hdd, hmm⟩
          · have hieq : i = document_id := by simp_all
            rw [hieq]
            refine ⟨⟨document_id, title, "", now, [k]⟩, ?_, ?_⟩
            · rw [alookup_append_of_none document_id s.documents _ hgd, alookup_singleton,
                if_pos rfl]
            · simp
        · rw [alookup_dictSet_ne username k _ _ hk] at hk'
          obtain ⟨he, hnodup0, hlink0⟩ := hu k u' hk'
          refine ⟨he, hnodup0, ?_⟩
          intro i hi
          obtain ⟨dd, hdd, hmm⟩ := hlink0 i hi
          exact ⟨dd, alookup_append_left i s.documents _ dd hdd, hmm⟩
      · intro k' dd hk'
        rcases alookup_append_cases k' s.documents _ dd hk' with hk1 | ⟨hk1, hk2⟩
        · obtain ⟨hide, hnodupd, hlinkd⟩ := hd k' dd hk1
          refine ⟨hide, hnodupd, ?_⟩
          intro n hn
          obtain ⟨u0, hu0, hmm⟩ := hlinkd n hn
          by_cases hnu2 : n = username
          · subst hnu2
            rw [hgu] at hu0
            cases hu0
            refine ⟨_, alookup_dictSet_self n _ s.users, ?_⟩
            simp [hmm]
          · refine ⟨u0, ?_, hmm⟩
            rw [alookup_dictSet_ne username n _ _ hnu2]
            exact hu0
        · rw [alookup_singleton] at hk2
          by_cases hke : document_id = k'
          · rw [if_pos hke] at hk2
            cases hk2
            subst hke
            refine ⟨rfl, List.nodup_singleton username, ?_⟩
            intro n hn
            have hneq : n = username := by simpa using hn
            subst hneq
            refine ⟨_, alookup_dictSet_self n _ s.users, ?_⟩
            simp
          · rw [if_neg hke] at hk2
            cases hk2
    · simp only [BL.create_document, Db.get_user, hgu, Db.create_document, hgd]
      exact h

theorem wf_applyCommand (c : Command) (s : Store) (h : s.wf) : (applyCommand c s).wf := by
  cases c with
  | registerUser u p => exact wf_register_user u p s h
  | createDocument t u id now => exact wf_create_document t u id now s h
  | updateDocumentTitle id t u now => exact wf_update_document_title id t u now s h
  | updateDocumentContent id content base u now =>
    rcases base with _ | b
    · exact wf_update_document_content id content u now s h
    · by_cases hb : b = ""
      · simp only [applyCommand, hb, if_pos rfl]
        exact wf_update_document_content id content u now s h
      · simp only [applyCommand, hb, if_false]
        exact wf_update_document_content_with_merge id content b u now s h
  | deleteDocument id u => exact wf_delete_document id u s h
  | addUserToDocument id u adder => exact wf_add_user_to_document id u adder s h
  | removeUserFromDocument id u remover => exact wf_remove_user_from_document id u remover s h

theorem wf_applyCommands (cmds : List Command) :
    ∀ s : Store, s.wf → (applyCommands cmds s).wf := by
  induction cmds with
  | nil => intro s h; exact h
  | cons c rest ih =>
    intro s h
    exact ih (applyCommand c s) (wf_applyCommand c s h)

theorem wf_emptyStore : (emptyStore).wf := by
  refine ⟨List.nodup_nil, List.nodup_nil, ?_, ?_⟩
  · intro k u hk
    cases hk
  · intro k d hk
    cases hk

/-- C5: starting from a fresh empty store, after any sequence of state-machine
commands the cross references stay consistent: usernames and document ids are
unique keys, every username in a document's user set names an existing user
whose document list holds that document's id, and every id in a user's
document list names an existing document whose user set holds that user. -/
theorem cross_reference_integrity (cmds : List Command) :
    (applyCommands cmds emptyStore).wf :=
  wf_applyCommands cmds emptyStore wf_emptyStore

-- ### Properties of the longest-match search.

theorem commonLen_le_left (a b : Chars) : commonLen a b ≤ a.length := by
  induction a generalizing b with
  | nil => simp [commonLen]
  | cons x xs ih =>
    cases b with
    | nil => simp [commonLen]
    | cons y ys =>
      by_cases h : x = y
      · simp only [commonLen, if_pos h, List.length_cons]
        exact Nat.succ_le_succ (ih ys)
      · simp [commonLen, h]

theorem commonLen_le_right (a b : Chars) : commonLen a b ≤ b.length := by
  induction a generalizing b with
  | nil => cases b <;> simp [commonLen]
  | cons x xs ih =>
    cases b with
    | nil => simp [commonLen]
    | cons y ys =>
      by_cases h : x = y
      · simp only [commonLen, if_pos h, List.length_cons]
        exact Nat.succ_le_succ (ih ys)
      · simp [commonLen, h]

theorem commonLen_self (a : Chars) : commonLen a a = a.length := by
  induction a with
  | nil => rfl
  | cons x xs ih => simp [commonLen, ih]

theorem take_commonLen_eq (a b : Chars) :
    a.take (commonLen a b) = b.take (commonLen a b) := by
  induction a generalizing b with
  | nil => cases b <;> simp [commonLen]
  | cons x xs ih =>
    cases b with
    | nil => simp [commonLen]
    | cons y ys =>
      by_cases h : x = y
      · simp only [commonLen, if_pos h, List.take_succ_cons]
        rw [h, ih ys]
      · simp [commonLen, h]

theorem matchLenAt_le_length (a b : Chars) (i j : Nat) : matchLenAt a b i j ≤ a.length := by
  unfold matchLenAt
  calc commonLen (a.drop i) (b.drop j) ≤ (a.drop i).length := commonLen_le_left _ _
    _ ≤ a.length := by rw [List.length_drop]; omega

theorem foldl_flmStep_ge (a b : Chars) :
    ∀ (l : List (Nat × Nat)) (best : Nat × Nat × Nat),
      best.2.2 ≤ (l.foldl (flmStep a b) best).2.2 := by
  intro l
  induction l with
  | nil => intro best; exact le_refl _
  | cons ij rest ih =>
    intro best
    rw [List.foldl_cons]
    refine le_trans ?_ (ih (flmStep a b best ij))
    simp only [flmStep]
    by_cases hk : best.2.2 < matchLenAt a b ij.1 ij.2
    · rw [if_pos hk]
      exact le_of_lt hk
    · rw [if_neg hk]

theorem foldl_flmStep_mem_le (a b : Chars) :
    ∀ (l : List (Nat × Nat)) (best : Nat × Nat × Nat) (ij : Nat × Nat), ij ∈ l →
      matchLenAt a b ij.1 ij.2 ≤ (l.foldl (flmStep a b) best).2.2 := by
  intro l
  induction l with
  | nil => intro best ij h; cases h
  | cons x rest ih =>
    intro best ij h
    rw [List.foldl_cons]
    rcases List.mem_cons.mp h with rfl | h
    · refine le_trans ?_ (foldl_flmStep_ge a b rest (flmStep a b best ij))
      simp only [flmStep]
      by_cases hk : best.2.2 < matchLenAt a b ij.1 ij.2
      · rw [if_pos hk]
      · rw [if_neg hk]
        omega
    · exact ih (flmStep a b best x) ij h

theorem foldl_flmStep_const (a b : Chars) :
    ∀ (l : List (Nat × Nat)) (best : Nat × Nat × Nat),
      (∀ ij ∈ l, matchLenAt a b ij.1 ij.2 ≤ best.2.2) →
      l.foldl (flmStep a b) best = best := by
  intro l
  induction l with
  | nil => intro best _; rfl
  | cons x rest ih =>
    intro best hb
    rw [List.foldl_cons]
    have hx : flmStep a b best x = best := by
      simp only [flmStep]
      rw [if_neg (by have := hb x (List.mem_cons_self x rest); omega)]
    rw [hx]
    exact ih best (fun ij hij => hb ij (List.mem_cons_of_mem x hij))

theorem foldl_flmStep_cases (a b : Chars) :
    ∀ (l : List (Nat × Nat)) (best : Nat × Nat × Nat),
      l.foldl (flmStep a b) best = best ∨
      ∃ ij ∈ l, l.foldl (flmStep a b) best = (ij.1, ij.2, matchLenAt a b ij.1 ij.2) := by
  intro l
  induction l with
  | nil => intro best; left; rfl
  | cons x rest ih =>
    intro best
    rw [List.foldl_cons]
    by_cases hk : best.2.2 < matchLenAt a b x.1 x.2
    · have hx : flmStep a b best x = (x.1, x.2, matchLenAt a b x.1 x.2) := by
        simp only [flmStep]
        rw [if_pos hk]
      rcases ih (flmStep a b best x) with h | ⟨ij, hmem, h⟩
      · right
        exact ⟨x, List.mem_cons_self x rest, by rw [h, hx]⟩
      · right
        exact ⟨ij, List.mem_cons_of_mem x hmem, h⟩
    · have hx : flmStep a b best x = best := by
        simp only [flmStep]
        rw [if_neg hk]
      rw [hx]
      rcases ih best with h | ⟨ij, hmem, h⟩
      · left
        exact h
      · right
        exact ⟨ij, List.mem_cons_of_mem x hmem, h⟩

theorem mem_candPairs_iff (a b : Chars) (ij : Nat × Nat) :
    ij ∈ candPairs a b ↔ ij.1 < a.length ∧ ij.2 < b.length := by
  obtain ⟨i, j⟩ := ij
  simp [candPairs, List.mem_flatMap, List.mem_map, List.mem_range]

theorem flm_spec (a b : Chars) :
    findLongestMatch a b = (0, 0, 0) ∨
    ∃ i j, i < a.length ∧ j < b.length ∧
      findLongestMatch a b = (i, j, matchLenAt a b i j) := by
  rcases foldl_flmStep_cases a b (candPairs a b) (0, 0, 0) with h | ⟨ij, hmem, h⟩
  · left
    exact h
  · right
    obtain ⟨h1, h2⟩ := (mem_candPairs_iff a b ij).mp hmem
    exact ⟨ij.1, ij.2, h1, h2, h⟩

theorem flm_valid (a b : Chars) (i j k : Nat)
    (h : findLongestMatch a b = (i, j, k)) (hk : k ≠ 0) :
    i + k ≤ a.length ∧ j + k ≤ b.length ∧ (a.drop i).take k = (b.drop j).take k := by
  rcases flm_spec a b with h0 | ⟨i', j', hi, hj, heq⟩
  · rw [h0] at h
    simp only [Prod.mk.injEq] at h
    exact absurd h.2.2.symm hk
  · rw [heq] at h
    simp only [Prod.mk.injEq] at h
    obtain ⟨h1, h2, h3⟩ := h
    subst h1
    subst h2
    subst h3
    refine ⟨?_, ?_, take_commonLen_eq (a.drop i') (b.drop j')⟩
    · have hml := commonLen_le_left (a.drop i') (b.drop j')
      rw [List.length_drop] at hml
      have hmeq : matchLenAt a b i' j' = commonLen (a.drop i') (b.drop j') := rfl
      omega
    · have hml := commonLen_le_right (a.drop i') (b.drop j')
      rw [List.length_drop] at hml
      have hmeq : matchLenAt a b i' j' = commonLen (a.drop i') (b.drop j') := rfl
      omega

theorem flm_self (a : Chars) (h : a ≠ []) : findLongestMatch a a = (0, 0, a.length) := by
  obtain ⟨m, hm⟩ : ∃ m, a.length = m + 1 := by
    cases a with
    | nil => exact absurd rfl h
    | cons x xs => exact ⟨xs.length, rfl⟩
  obtain ⟨rest, hcand⟩ : ∃ rest, candPairs a a = (0, 0) :: rest := by
    unfold candPairs
    rw [hm, List.range_succ_eq_map, List.flatMap_cons, List.map_cons, List.cons_append]
    exact ⟨_, rfl⟩
  unfold findLongestMatch
  rw [hcand, List.foldl_cons]
  have hstep : flmStep a a (0, 0, 0) (0, 0) = (0, 0, a.length) := by
    simp only [flmStep, matchLenAt, List.drop_zero, commonLen_self]
    rw [if_pos (by omega)]
  rw [hstep]
  exact foldl_flmStep_const a a _ _ (fun ij _ => matchLenAt_le_length a a ij.1 ij.2)

theorem matchingBlocksF_nil_left (fuel : Nat) (b : Chars) :
    matchingBlocksF fuel [] b = [] := by
  cases fuel with
  | zero => rfl
  | succ f =>
    rw [matchingBlocksF]
    have hflm : findLongestMatch [] b = (0, 0, 0) := by
      rcases flm_spec [] b with h | ⟨i, j, hi, hj, heq⟩
      · exact h
      · simp at hi
    simp [hflm]

theorem matchingBlocksF_self (fuel : Nat) (s : Chars) (h : s ≠ []) (hf : 2 ≤ fuel) :
    matchingBlocksF fuel s s = [(0, 0, s.length)] := by
  obtain ⟨f1, rfl⟩ : ∃ f1, fuel = f1 + 1 := ⟨fuel - 1, by omega⟩
  rw [matchingBlocksF]
  simp only [flm_self s h]
  have hlen : s.length ≠ 0 := by
    cases s with
    | nil => exact absurd rfl h
    | cons x xs => simp
  rw [if_neg hlen]
  simp only [List.take_zero, Nat.zero_add, List.drop_length, matchingBlocksF_nil_left,
    shiftBlocks, List.map_nil]
  rfl

theorem charOps_nil_nil : charOps [] [] = [] := rfl

theorem charOps_self (s : Chars) : charOps s s = [] := by
  cases hs : s with
  | nil => rfl
  | cons x xs =>
    unfold charOps getOpcodes matchingBlocks
    rw [matchingBlocksF_self _ _ (by simp) (by simp; omega)]
    rw [opcodesAux, opcodesAux]
    have hgap0 : gapOpcodes 0 0 0 0 = [] := rfl
    have hgap1 : gapOpcodes (0 + (x :: xs).length) (x :: xs).length
        (0 + (x :: xs).length) (x :: xs).length = [] := by
      unfold gapOpcodes
      simp
    rw [hgap0, hgap1]
    rfl

-- ### Decomposition of the opcode walk around the main matching block.

theorem opcodesAux_append (la lb p q k : Nat) :
    ∀ (bs rest : List (Nat × Nat × Nat)) (i j : Nat),
      opcodesAux la lb i j (bs ++ (p, q, k) :: rest)
        = opcodesAux p q i j bs
          ++ ⟨.equal, p, p + k, q, q + k⟩ :: opcodesAux la lb (p + k) (q + k) rest := by
  intro bs
  induction bs with
  | nil => intro rest i j; rfl
  | cons blk tail ih =>
    intro rest i j
    obtain ⟨ai, bj, kk⟩ := blk
    rw [List.cons_append, opcodesAux, opcodesAux, ih, List.append_assoc]
    rfl

theorem gapOpcodes_shift (i ai j bj di dj : Nat) :
    gapOpcodes (i + di) (ai + di) (j + dj) (bj + dj)
      = (gapOpcodes i ai j bj).map (shiftOpcode di dj) := by
  unfold gapOpcodes shiftOpcode
  by_cases h1 : i < ai <;> by_cases h2 : j < bj <;>
    simp [h1, h2, Nat.add_lt_add_iff_right]

theorem opcodesAux_shift (la lb di dj : Nat) :
    ∀ (bs : List (Nat × Nat × Nat)) (i j : Nat),
      opcodesAux (la + di) (lb + dj) (i + di) (j + dj) (shiftBlocks di dj bs)
        = (opcodesAux la lb i j bs).map (shiftOpcode di dj) := by
  intro bs
  induction bs with
  | nil =>
    intro i j
    rw [show shiftBlocks di dj [] = [] from rfl, opcodesAux, opcodesAux]
    exact gapOpcodes_shift i la j lb di dj
  | cons blk tail ih =>
    intro i j
    obtain ⟨ai, bj, kk⟩ := blk
    rw [show shiftBlocks di dj ((ai, bj, kk) :: tail)
        = (ai + di, bj + dj, kk) :: shiftBlocks di dj tail from rfl]
    rw [opcodesAux, opcodesAux, List.map_append, List.map_cons]
    rw [gapOpcodes_shift]
    congr 1
    rw [show shiftOpcode di dj ⟨.equal, ai, ai + kk, bj, bj + kk⟩
        = ⟨.equal, ai + di, ai + kk + di, bj + dj, bj + kk + dj⟩ from rfl]
    have e1 : ai + di + kk = ai + kk + di := by omega
    have e2 : bj + dj + kk = bj + kk + dj := by omega
    rw [e1, e2]
    congr 1
    rw [← e1, ← e2]
    exact ih (ai + kk) (bj + kk) ▸ by rw [e1, e2]

theorem getCharacterOperations_append (b : Chars) (l₁ l₂ : List Opcode) :
    getCharacterOperations b (l₁ ++ l₂)
      = getCharacterOperations b l₁ ++ getCharacterOperations b l₂ := by
  unfold getCharacterOperations
  exact List.filterMap_append l₁ l₂ _

theorem getCharacterOperations_equal_cons (b : Chars) (i1 i2 j1 j2 : Nat) (l : List Opcode) :
    getCharacterOperations b (⟨.equal, i1, i2, j1, j2⟩ :: l)
      = getCharacterOperations b l := rfl

theorem slice_shift (b : Chars) (j1 j2 dj : Nat) :
    slice b (j1 + dj) (j2 + dj) = slice (b.drop dj) j1 j2 := by
  unfold slice
  rw [List.drop_drop]
  congr 1
  · omega
  · congr 1
    omega

theorem getCharacterOperations_shift (b : Chars) (di dj : Nat) (ocs : List Opcode) :
    getCharacterOperations b (ocs.map (shiftOpcode di dj))
      = (getCharacterOperations (b.drop dj) ocs).map (shiftCharOp di) := by
  induction ocs with
  | nil => rfl
  | cons oc rest ih =>
    obtain ⟨tag, i1, i2, j1, j2⟩ := oc
    cases tag with
    | replace =>
      show (CharOp.rep (i1 + di) (i2 + di - (i1 + di)) (slice b (j1 + dj) (j2 + dj)))
          :: getCharacterOperations b (rest.map (shiftOpcode di dj))
        = (CharOp.rep (i1 + di) (i2 - i1) (slice (b.drop dj) j1 j2))
          :: (getCharacterOperations (b.drop dj) rest).map (shiftCharOp di)
      rw [ih, slice_shift]
      congr 2
      omega
    | delete =>
      show (CharOp.del (i1 + di) (i2 + di - (i1 + di)))
          :: getCharacterOperations b (rest.map (shiftOpcode di dj))
        = (CharOp.del (i1 + di) (i2 - i1))
          :: (getCharacterOperations (b.drop dj) rest).map (shiftCharOp di)
      rw [ih]
      congr 2
      omega
    | insert =>
      show (CharOp.ins (i1 + di) (slice b (j1 + dj) (j2 + dj)))
          :: getCharacterOperations b (rest.map (shiftOpcode di dj))
        = (CharOp.ins (i1 + di) (slice (b.drop dj) j1 j2))
          :: (getCharacterOperations (b.drop dj) rest).map (shiftCharOp di)
      rw [ih, slice_shift]
    | equal => exact ih

theorem slice_take (b : Chars) (j j1 j2 : Nat) (h : j2 ≤ j) :
    slice (b.take j) j1 j2 = slice b j1 j2 := by
  unfold slice
  rw [List.drop_take]
  rw [List.take_take]
  congr 1
  omega

theorem getCharacterOperations_take (b : Chars) (j : Nat) (ocs : List Opcode)
    (h : ∀ oc ∈ ocs, oc.j2 ≤ j) :
    getCharacterOperations (b.take j) ocs = getCharacterOperations b ocs := by
  induction ocs with
  | nil => rfl
  | cons oc rest ih =>
    have hoc := h oc (List.mem_cons_self oc rest)
    have hrest := fun x hx => h x (List.mem_cons_of_mem oc hx)
    obtain ⟨tag, i1, i2, j1, j2⟩ := oc
    cases tag with
    | replace =>
      show (CharOp.rep i1 (i2 - i1) (slice (b.take j) j1 j2)) :: _
        = (CharOp.rep i1 (i2 - i1) (slice b j1 j2)) :: _
      rw [slice_take b j j1 j2 hoc]
      congr 1
      exact ih hrest
    | delete =>
      show (CharOp.del i1 (i2 - i1)) :: _ = (CharOp.del i1 (i2 - i1)) :: _
      congr 1
      exact ih hrest
    | insert =>
      show (CharOp.ins i1 (slice (b.take j) j1 j2)) :: _
        = (CharOp.ins i1 (slice b j1 j2)) :: _
      rw [slice_take b j j1 j2 hoc]
      congr 1
      exact ih hrest
    | equal => exact ih hrest

theorem blocksF_bounds :
    ∀ (fuel : Nat) (a b : Chars), a.length + b.length < fuel →
      ∀ t ∈ matchingBlocksF fuel a b, t.1 + t.2.2 ≤ a.length ∧ t.2.1 + t.2.2 ≤ b.length := by
  intro fuel
  induction fuel with
  | zero => intro a b h; omega
  | succ fuel ih =>
    intro a b h t ht
    rw [matchingBlocksF] at ht
    rcases hflm : findLongestMatch a b with ⟨i, j, k⟩
    rw [hflm] at ht
    by_cases hk : k = 0
    · simp only [hk, if_pos rfl] at ht
      cases ht
    · simp only [if_neg hk] at ht
      obtain ⟨hik, hjk, -⟩ := flm_valid a b i j k hflm hk
      have hi : i ≤ a.length := by omega
      have hj : j ≤ b.length := by omega
      rcases List.mem_append.mp ht with ht | ht
      · have hlt : (a.take i).length + (b.take j).length < fuel := by
          rw [List.length_take, List.length_take]
          omega
        have := ih (a.take i) (b.take j) hlt t ht
        rw [List.length_take, List.length_take] at this
        omega
      · rcases List.mem_cons.mp ht with rfl | ht
        · exact ⟨hik, hjk⟩
        · simp only [shiftBlocks, List.mem_map] at ht
          obtain ⟨t0, ht0, rfl⟩ := ht
          have hlt : (a.drop (i + k)).length + (b.drop (j + k)).length < fuel := by
            rw [List.length_drop, List.length_drop]
            omega
          have := ih (a.drop (i + k)) (b.drop (j + k)) hlt t0 ht0
          rw [List.length_drop, List.length_drop] at this
          dsimp only
          omega

theorem gapOpcodes_j2 (i ai j bj : Nat) :
    ∀ oc ∈ gapOpcodes i ai j bj, oc.j2 = bj := by
  intro oc hoc
  unfold gapOpcodes at hoc
  by_cases h1 : i < ai ∧ j < bj
  · rw [if_pos h1] at hoc
    rcases List.mem_singleton.mp hoc with rfl
    rfl
  · rw [if_neg h1] at hoc
    by_cases h2 : i < ai
    · rw [if_pos h2] at hoc
      rcases List.mem_singleton.mp hoc with rfl
      rfl
    · rw [if_neg h2] at hoc
      by_cases h3 : j < bj
      · rw [if_pos h3] at hoc
        rcases List.mem_singleton.mp hoc with rfl
        rfl
      · rw [if_neg h3] at hoc
        cases hoc

theorem opcodesAux_j2_le (la lb : Nat) :
    ∀ (bs : List (Nat × Nat × Nat)) (i j : Nat),
      (∀ t ∈ bs, t.2.1 + t.2.2 ≤ lb) →
      ∀ oc ∈ opcodesAux la lb i j bs, oc.j2 ≤ lb := by
  intro bs
  induction bs with
  | nil =>
    intro i j _ oc hoc
    rw [gapOpcodes_j2 i la j lb oc hoc]
  | cons blk tail ih =>
    intro i j hb oc hoc
    obtain ⟨ai, bj, kk⟩ := blk
    have hhead : bj + kk ≤ lb := hb (ai, bj, kk) (List.mem_cons_self _ _)
    rw [opcodesAux] at hoc
    rcases List.mem_append.mp hoc with hoc | hoc
    · rw [gapOpcodes_j2 i ai j bj oc hoc]
      omega
    · rcases List.mem_cons.mp hoc with rfl | hoc
      · show bj + kk ≤ lb
        exact hhead
      · exact ih (ai + kk) (bj + kk) (fun t ht => hb t (List.mem_cons_of_mem _ ht)) oc hoc

theorem opsOfF_decomp (fuel : Nat) (a b : Chars) (h : a.length + b.length < fuel + 1)
    (i j k : Nat) (hflm : findLongestMatch a b = (i, j, k)) (hk : k ≠ 0) :
    opsOfF (fuel + 1) a b
      = opsOfF fuel (a.take i) (b.take j)
        ++ (opsOfF fuel (a.drop (i + k)) (b.drop (j + k))).map (shiftCharOp (i + k)) := by
  obtain ⟨hik, hjk, -⟩ := flm_valid a b i j k hflm hk
  have hi : i ≤ a.length := by omega
  have hj : j ≤ b.length := by omega
  unfold opsOfF
  rw [matchingBlocksF, hflm]
  simp only [if_neg hk]
  rw [opcodesAux_append]
  rw [getCharacterOperations_append, getCharacterOperations_equal_cons]
  congr 1
  · -- left part
    have hbl : ∀ t ∈ matchingBlocksF fuel (a.take i) (b.take j), t.2.1 + t.2.2 ≤ j := by
      intro t ht
      have hlt : (a.take i).length + (b.take j).length < fuel := by
        rw [List.length_take, List.length_take]
        omega
      have := (blocksF_bounds fuel (a.take i) (b.take j) hlt t ht).2
      rw [List.length_take] at this
      omega
    rw [show (a.take i).length = i by rw [List.length_take]; omega,
      show (b.take j).length = j by rw [List.length_take]; omega]
    exact (getCharacterOperations_take b j _ (opcodesAux_j2_le i j _ 0 0 hbl)).symm
  · -- right shifted part
    have key := opcodesAux_shift (a.drop (i + k)).length (b.drop (j + k)).length
      (i + k) (j + k) (matchingBlocksF fuel (a.drop (i + k)) (b.drop (j + k))) 0 0
    rw [Nat.zero_add, Nat.zero_add] at key
    have e1 : (a.drop (i + k)).length + (i + k) = a.length := by
      rw [List.length_drop]; omega
    have e2 : (b.drop (j + k)).length + (j + k) = b.length := by
      rw [List.length_drop]; omega
    rw [e1, e2] at key
    rw [key, getCharacterOperations_shift]

theorem gapOpcodes_i1 (i ai j bj : Nat) :
    ∀ oc ∈ gapOpcodes i ai j bj, oc.i1 = i := by
  intro oc hoc
  unfold gapOpcodes at hoc
  by_cases h1 : i < ai ∧ j < bj
  · rw [if_pos h1] at hoc
    rcases List.mem_singleton.mp hoc with rfl
    rfl
  · rw [if_neg h1] at hoc
    by_cases h2 : i < ai
    · rw [if_pos h2] at hoc
      rcases List.mem_singleton.mp hoc with rfl
      rfl
    · rw [if_neg h2] at hoc
      by_cases h3 : j < bj
      · rw [if_pos h3] at hoc
        rcases List.mem_singleton.mp hoc with rfl
        rfl
      · rw [if_neg h3] at hoc
        cases hoc

theorem opcodesAux_i1_le (la lb : Nat) :
    ∀ (bs : List (Nat × Nat × Nat)) (i j : Nat),
      (∀ t ∈ bs, t.1 + t.2.2 ≤ la) → i ≤ la →
      ∀ oc ∈ opcodesAux la lb i j bs, oc.i1 ≤ la := by
  intro bs
  induction bs with
  | nil =>
    intro i j _ hi oc hoc
    rw [opcodesAux] at hoc
    rw [gapOpcodes_i1 i la j lb oc hoc]
    exact hi
  | cons blk tail ih =>
    intro i j hb hi oc hoc
    obtain ⟨ai, bj, kk⟩ := blk
    have hhead : ai + kk ≤ la := hb (ai, bj, kk) (List.mem_cons_self _ _)
    rw [opcodesAux] at hoc
    rcases List.mem_append.mp hoc with hoc | hoc
    · rw [gapOpcodes_i1 i ai j bj oc hoc]
      exact hi
    · rcases List.mem_cons.mp hoc with rfl | hoc
      · show ai ≤ la
        omega
      · exact ih (ai + kk) (bj + kk) (fun t ht => hb t (List.mem_cons_of_mem _ ht))
          (by omega) oc hoc

theorem getCharacterOperations_pos (b : Chars) (ocs : List Opcode) (op : CharOp)
    (h : op ∈ getCharacterOperations b ocs) : ∃ oc ∈ ocs, op.pos = oc.i1 := by
  obtain ⟨oc, hoc, hsome⟩ := List.mem_filterMap.mp h
  refine ⟨oc, hoc, ?_⟩
  obtain ⟨tag, i1, i2, j1, j2⟩ := oc
  cases tag
  · have h2 := Option.some.inj hsome
    subst h2
    rfl
  · have h2 := Option.some.inj hsome
    subst h2
    rfl
  · have h2 := Option.some.inj hsome
    subst h2
    rfl
  · exact Option.noConfusion hsome

theorem opsOfF_pos_bound (fuel : Nat) (a b : Chars) (h : a.length + b.length < fuel)
    (op : CharOp) (hop : op ∈ opsOfF fuel a b) : op.pos ≤ a.length := by
  obtain ⟨oc, hoc, hpos⟩ := getCharacterOperations_pos b _ op hop
  rw [hpos]
  exact opcodesAux_i1_le a.length b.length _ 0 0
    (fun t ht => (blocksF_bounds fuel a b h t ht).1) (Nat.zero_le _) oc hoc

theorem shiftCharOp_pos (m : Nat) (op : CharOp) :
    (shiftCharOp m op).pos = op.pos + m := by
  cases op <;> rfl

theorem pairwise_getCharacterOperations_gap (b : Chars) (i ai j bj : Nat) :
    List.Pairwise (fun o1 o2 => o1.pos < o2.pos)
      (getCharacterOperations b (gapOpcodes i ai j bj)) := by
  unfold gapOpcodes
  split
  · simp [getCharacterOperations]
  · split
    · simp [getCharacterOperations]
    · split
      · simp [getCharacterOperations]
      · simp [getCharacterOperations]

theorem opsOfF_sorted :
    ∀ (fuel : Nat) (a b : Chars), a.length + b.length < fuel →
      List.Pairwise (fun o1 o2 => o1.pos < o2.pos) (opsOfF fuel a b) := by
  intro fuel
  induction fuel with
  | zero => intro a b h; omega
  | succ fuel ih =>
    intro a b h
    rcases hflm : findLongestMatch a b with ⟨i, j, k⟩
    by_cases hk : k = 0
    · subst hk
      have hblk : matchingBlocksF (fuel + 1) a b = [] := by
        rw [matchingBlocksF, hflm]
        simp
      unfold opsOfF
      rw [hblk, opcodesAux]
      exact pairwise_getCharacterOperations_gap b 0 a.length 0 b.length
    · obtain ⟨hik, hjk, -⟩ := flm_valid a b i j k hflm hk
      rw [opsOfF_decomp fuel a b h i j k hflm hk]
      rw [List.pairwise_append]
      refine ⟨?_, ?_, ?_⟩
      · exact ih (a.take i) (b.take j) (by rw [List.length_take, List.length_take]; omega)
      · rw [List.pairwise_map]
        have hp := ih (a.drop (i + k)) (b.drop (j + k))
          (by rw [List.length_drop, List.length_drop]; omega)
        exact hp.imp (fun hlt => by rw [shiftCharOp_pos, shiftCharOp_pos]; omega)
      · intro x hx y hy
        obtain ⟨y0, hy0, rfl⟩ := List.mem_map.mp hy
        have hxb := opsOfF_pos_bound fuel (a.take i) (b.take j)
          (by rw [List.length_take, List.length_take]; omega) x hx
        rw [List.length_take] at hxb
        rw [shiftCharOp_pos]
        omega

theorem insertDescByPos_append (x : CharOp) : ∀ (l : List CharOp),
    (∀ y ∈ l, x.pos < y.pos) → insertDescByPos x l = l ++ [x] := by
  intro l
  induction l with
  | nil => intro _; rfl
  | cons y ys ih =>
    intro h
    rw [insertDescByPos]
    rw [if_neg (by have := h y (List.mem_cons_self _ _); omega)]
    rw [ih (fun z hz => h z (List.mem_cons_of_mem _ hz))]
    rfl

theorem sortDescByPos_eq_reverse : ∀ (l : List CharOp),
    List.Pairwise (fun o1 o2 => o1.pos < o2.pos) l → sortDescByPos l = l.reverse := by
  intro l
  induction l with
  | nil => intro _; rfl
  | cons x xs ih =>
    intro h
    obtain ⟨hx, hxs⟩ := List.pairwise_cons.mp h
    rw [sortDescByPos]
    rw [ih hxs]
    rw [insertDescByPos_append x xs.reverse (fun y hy => hx y (List.mem_reverse.mp hy))]
    rw [List.reverse_cons]

theorem pyInsert_append (x : α) : ∀ (P r : List α) (p : Nat),
    pyInsert (p + P.length) x (P ++ r) = P ++ pyInsert p x r := by
  intro P
  induction P with
  | nil => intro r p; rfl
  | cons y P ih =>
    intro r p
    show pyInsert ((p + P.length) + 1) x (y :: (P ++ r)) = y :: (P ++ pyInsert p x r)
    rw [pyInsert]
    rw [ih]

theorem pyDelSlice_append (P r : List α) (p L : Nat) :
    pyDelSlice (p + P.length) L (P ++ r) = P ++ pyDelSlice p L r := by
  unfold pyDelSlice
  rw [show p + P.length = P.length + p from Nat.add_comm p P.length]
  rw [show P.length + p + L = P.length + (p + L) from Nat.add_assoc _ _ _]
  rw [List.take_append, List.drop_append, List.append_assoc]

theorem pyDelSlice_zero_full (P r : List α) : pyDelSlice 0 P.length (P ++ r) = r := by
  unfold pyDelSlice
  rw [List.take_zero, Nat.zero_add, List.drop_left, List.nil_append]

theorem slice_full (b : Chars) : slice b 0 b.length = b := by
  unfold slice
  rw [List.drop_zero, Nat.sub_zero, List.take_length]

theorem flatten_map_single : ∀ (l : Chars), (l.map (fun c => [c])).flatten = l := by
  intro l
  induction l with
  | nil => rfl
  | cons x xs ih => simp only [List.map_cons, List.flatten_cons, List.singleton_append, ih]

theorem applyServerOp_shift (P r : List Chars) (op : CharOp) :
    applyServerOp (P ++ r) (shiftCharOp P.length op) = P ++ applyServerOp r op := by
  cases op with
  | ins p t => exact pyInsert_append t P r p
  | del p L => exact pyDelSlice_append P r p L
  | rep p L t =>
    show pyInsert (p + P.length) t (pyDelSlice (p + P.length) L (P ++ r))
      = P ++ pyInsert p t (pyDelSlice p L r)
    rw [pyDelSlice_append, pyInsert_append]

theorem foldl_applyServerOp_shift (m : Nat) (P : List Chars) (hm : P.length = m) :
    ∀ (ops : List CharOp) (r : List Chars),
      (ops.map (shiftCharOp m)).foldl applyServerOp (P ++ r)
        = P ++ ops.foldl applyServerOp r := by
  subst hm
  intro ops
  induction ops with
  | nil => intro r; rfl
  | cons op rest ih =>
    intro r
    rw [List.map_cons, List.foldl_cons, List.foldl_cons, applyServerOp_shift, ih]

-- Reconstruction: replaying the diff's operations (largest position first) on
-- the exploded base rebuilds the target string, for any trailing context `R`.
theorem flatten_foldl_applyServerOp_recon :
    ∀ (fuel : Nat) (a b : Chars), a.length + b.length < fuel →
      ∀ R : List Chars,
        (((opsOfF fuel a b).reverse).foldl applyServerOp ((a.map (fun c => [c])) ++ R)).flatten
          = b ++ R.flatten := by
  intro fuel
  induction fuel with
  | zero => intro a b h; omega
  | succ fuel ih =>
    intro a b h R
    rcases hflm : findLongestMatch a b with ⟨i, j, k⟩
    by_cases hk : k = 0
    · subst hk
      have hblk : matchingBlocksF (fuel + 1) a b = [] := by
        rw [matchingBlocksF, hflm]
        simp
      have hops : opsOfF (fuel + 1) a b
          = getCharacterOperations b (gapOpcodes 0 a.length 0 b.length) := by
        unfold opsOfF
        rw [hblk, opcodesAux]
      by_cases ha : a = []
      · subst ha
        simp only [List.length_nil] at hops
        by_cases hb : b = []
        · subst hb
          rw [hops]
          simp [gapOpcodes, getCharacterOperations]
        · have hbl : 0 < b.length := List.length_pos.mpr hb
          have hgap : gapOpcodes 0 0 0 b.length = [⟨.insert, 0, 0, 0, b.length⟩] := by
            unfold gapOpcodes
            rw [if_neg (by omega), if_neg (by omega), if_pos hbl]
          rw [hops, hgap]
          show (slice b 0 b.length :: R).flatten = b ++ R.flatten
          rw [slice_full, List.flatten_cons]
      · have hal : 0 < a.length := List.length_pos.mpr ha
        by_cases hb : b = []
        · subst hb
          simp only [List.length_nil] at hops
          have hgap : gapOpcodes 0 a.length 0 0
              = [⟨.delete, 0, a.length, 0, 0⟩] := by
            unfold gapOpcodes
            rw [if_neg (by omega), if_pos hal]
          rw [hops, hgap]
          show (pyDelSlice 0 a.length (a.map (fun c => [c]) ++ R)).flatten
            = [] ++ R.flatten
          rw [show a.length = (a.map (fun c => [c])).length from (List.length_map a _).symm]
          rw [pyDelSlice_zero_full, List.nil_append]
        · have hbl : 0 < b.length := List.length_pos.mpr hb
          have hgap : gapOpcodes 0 a.length 0 b.length
              = [⟨.replace, 0, a.length, 0, b.length⟩] := by
            unfold gapOpcodes
            rw [if_pos ⟨hal, hbl⟩]
          rw [hops, hgap]
          show (pyInsert 0 (slice b 0 b.length)
              (pyDelSlice 0 a.length (a.map (fun c => [c]) ++ R))).flatten
            = b ++ R.flatten
          rw [slice_full]
          rw [show a.length = (a.map (fun c => [c])).length from (List.length_map a _).symm]
          rw [pyDelSlice_zero_full]
          show (b :: R).flatten = b ++ R.flatten
          rw [List.flatten_cons]
    · obtain ⟨hik, hjk, heq⟩ := flm_valid a b i j k hflm hk
      have hlt1 : (a.take i).length + (b.take j).length < fuel := by
        rw [List.length_take, List.length_take]
        omega
      have hlt2 : (a.drop (i + k)).length + (b.drop (j + k)).length < fuel := by
        rw [List.length_drop, List.length_drop]
        omega
      have hlen : ((a.take (i + k)).map (fun c => [c])).length = i + k := by
        rw [List.length_map, List.length_take]
        omega
      rw [opsOfF_decomp fuel a b h i j k hflm hk, List.reverse_append, List.foldl_append,
        ← List.map_reverse]
      have hsplit : a.map (fun c => [c]) ++ R
          = (a.take (i + k)).map (fun c => [c])
            ++ ((a.drop (i + k)).map (fun c => [c]) ++ R) := by
        rw [← List.append_assoc, ← List.map_append, List.take_append_drop]
      rw [hsplit]
      rw [foldl_applyServerOp_shift (i + k) _ hlen]
      have hsplit2 : (a.take (i + k)).map (fun c => [c])
          = (a.take i).map (fun c => [c]) ++ ((a.drop i).take k).map (fun c => [c]) := by
        rw [← List.map_append, List.take_add]
      rw [hsplit2, List.append_assoc]
      rw [ih (a.take i) (b.take j) hlt1]
      rw [List.flatten_append, flatten_map_single]
      rw [ih (a.drop (i + k)) (b.drop (j + k)) hlt2]
      rw [heq]
      have hb1 : b.drop (j + k) = (b.drop j).drop k := by
        rw [List.drop_drop, Nat.add_comm]
      rw [hb1]
      have hb2 : (b.drop j).take k ++ ((b.drop j).drop k ++ R.flatten)
          = b.drop j ++ R.flatten := by
        rw [← List.append_assoc, List.take_append_drop]
      rw [hb2, ← List.append_assoc, List.take_append_drop]

theorem mergeChanges_self_client (a b : Chars) :
    mergeChangesCharacterLevel a b a
      = ((sortDescByPos (charOps a b)).foldl applyServerOp (a.map (fun c => [c]))).flatten := by
  unfold mergeChangesCharacterLevel
  rw [charOps_self]
  rfl

/-- C1 (amended): when the client made no changes, the character-level merge
returns the server's current content: merge(base, current, base) = current
for all strings. -/
theorem merge_base_client_yields_current (base current : String) :
    mergeStr base current base = current := by
  obtain ⟨b⟩ := base
  obtain ⟨c⟩ := current
  show String.mk (mergeChangesCharacterLevel b c b) = String.mk c
  rw [mergeChanges_self_client b c]
  have hch : charOps b c = opsOfF (b.length + c.length + 1) b c := rfl
  rw [hch, sortDescByPos_eq_reverse _
    (opsOfF_sorted (b.length + c.length + 1) b c (Nat.lt_succ_self _))]
  rw [show b.map (fun ch => [ch]) = b.map (fun ch => [ch]) ++ []
    from (List.append_nil _).symm]
  rw [flatten_foldl_applyServerOp_recon (b.length + c.length + 1) b c
    (Nat.lt_succ_self _) []]
  simp

/-- C8: evaluation of the character-level merge at the spec's literal inputs.
The server replaced the first token and the client the second, but the merged
output is "HELLO worlWORLD", not the spec's "HELLO WORLD": the transformed
client replacement at character position 6 is applied as a list-element index
after the server replacement compressed "HELLO" into a single element, so it
lands on "d" and duplicates "worl". -/
theorem merge_nonoverlapping_literal_eval :
    mergeStr "hello world" "HELLO world" "hello WORLD" = "HELLO worlWORLD" := by
  decide

/-- C1 (counterexample): the merge is not idempotent in the client argument:
`merge("", "a", "a")` transforms the client's duplicate insert past the
server's identical insert and re-applies it, giving "aa" instead of "a". -/
theorem merge_same_edit_not_idempotent :
    mergeStr "" "a" "a" = "aa" ∧ ("aa" : String) ≠ "a" := by
  exact ⟨by decide, by decide⟩

theorem scanCommit_cons_hit (node : NodeState) (x : Nat) (rest : List Nat)
    (hq : QualP node x) : scanCommit node (x :: rest) = some x := by
  obtain ⟨e, hget, hterm, hmaj⟩ := hq
  rw [scanCommit, hget]
  simp [hterm, hmaj]

theorem scanCommit_cons_skip (node : NodeState) (x : Nat) (rest : List Nat)
    (hq : ¬ QualP node x) : scanCommit node (x :: rest) = scanCommit node rest := by
  rw [scanCommit]
  rcases hget : node.log.get? x with _ | e
  · rfl
  · by_cases hterm : e.term = node.currentTerm
    · by_cases hmaj : node.peerAddresses.length + 1 < 2 * replicatedCount node x
      · exact absurd ⟨e, hget, hterm, hmaj⟩ hq
      · simp [hterm, hmaj]
    · simp [hterm]

theorem scanCommit_none_sound (node : NodeState) :
    ∀ l : List Nat, scanCommit node l = none → ∀ n ∈ l, ¬ QualP node n := by
  intro l
  induction l with
  | nil => intro _ n hn; cases hn
  | cons x rest ih =>
    intro h n hn
    by_cases hx : QualP node x
    · rw [scanCommit_cons_hit node x rest hx] at h
      cases h
    · rw [scanCommit_cons_skip node x rest hx] at h
      rcases List.mem_cons.mp hn with rfl | hn
      · exact hx
      · exact ih h n hn

theorem scanCommit_some_first (node : NodeState) :
    ∀ l : List Nat, l.Pairwise (· < ·) → ∀ n, scanCommit node l = some n →
      QualP node n ∧ n ∈ l ∧ ∀ m ∈ l, m < n → ¬ QualP node m := by
  intro l
  induction l with
  | nil => intro _ n h; cases h
  | cons x rest ih =>
    intro hp n h
    have hpr : rest.Pairwise (· < ·) := hp.of_cons
    have hlt : ∀ m ∈ rest, x < m := (List.pairwise_cons.mp hp).1
    by_cases hx : QualP node x
    · rw [scanCommit_cons_hit node x rest hx] at h
      cases h
      refine ⟨hx, List.mem_cons_self x rest, ?_⟩
      intro m hm hmn
      rcases List.mem_cons.mp hm with rfl | hm
      · omega
      · exact absurd hmn (by have := hlt m hm; omega)
    · rw [scanCommit_cons_skip node x rest hx] at h
      obtain ⟨hq, hmem, hfirst⟩ := ih hpr n h
      refine ⟨hq, List.mem_cons_of_mem x hmem, ?_⟩
      intro m hm hmn
      rcases List.mem_cons.mp hm with rfl | hm
      · exact hx
      · exact hfirst m hm hmn

/-- C2 (amended): on a leader, `_update_commit_index` either leaves
`commit_index` unchanged, in which case no index above it qualifies, or
advances it to the SMALLEST index `n > commit_index` whose entry has the
current term and is replicated on a strict majority counting the leader (the
spec's "largest" is reached only over repeated invocations); an index failing
either condition never becomes the new `commit_index`. -/
theorem update_commit_index_first_qualifying (node : NodeState)
    (hL : node.role = Role.leader) (hci : -1 ≤ node.commitIndex) :
    ((updateCommitIndex node).commitIndex = node.commitIndex ∧
      ∀ n : Nat, node.commitIndex < (n : Int) → ¬ QualP node n) ∨
    (∃ n : Nat, (updateCommitIndex node).commitIndex = (n : Int) ∧
      node.commitIndex < (n : Int) ∧ QualP node n ∧
      ∀ m : Nat, node.commitIndex < (m : Int) → m < n → ¬ QualP node m) := by
  have hstart : ((node.commitIndex + 1).toNat : Int) = node.commitIndex + 1 :=
    Int.toNat_of_nonneg (by omega)
  unfold updateCommitIndex
  simp only [hL, ne_eq, not_true_eq_false, if_false, reduceCtorEq, ite_false]
  rcases hscan : scanCommit node
      (List.range' (node.commitIndex + 1).toNat
        (node.log.length - (node.commitIndex + 1).toNat)) with _ | n
  · left
    refine ⟨rfl, ?_⟩
    intro n hn hq
    by_cases hlen : n < node.log.length
    · have hmem : n ∈ List.range' (node.commitIndex + 1).toNat
          (node.log.length - (node.commitIndex + 1).toNat) := by
        rw [List.mem_range'_1]
        omega
      exact scanCommit_none_sound node _ hscan n hmem hq
    · obtain ⟨e, he, -, -⟩ := hq
      rw [List.get?_eq_none.mpr (by omega)] at he
      cases he
  · right
    obtain ⟨hq, hmem, hfirst⟩ :=
      scanCommit_some_first node _ (List.pairwise_lt_range' _ _) n hscan
    rw [List.mem_range'_1] at hmem
    refine ⟨n, rfl, by omega, hq, ?_⟩
    intro m hm hmn
    refine hfirst m ?_ hmn
    rw [List.mem_range'_1]
    omega

theorem update_commit_index_first_qualifying_witness :
    nodeC2w.role = Role.leader ∧ (-1 : Int) ≤ nodeC2w.commitIndex ∧
    (((updateCommitIndex nodeC2w).commitIndex = nodeC2w.commitIndex ∧
        ∀ n : Nat, nodeC2w.commitIndex < (n : Int) → ¬ QualP nodeC2w n) ∨
      (∃ n : Nat, (updateCommitIndex nodeC2w).commitIndex = (n : Int) ∧
        nodeC2w.commitIndex < (n : Int) ∧ QualP nodeC2w n ∧
        ∀ m : Nat, nodeC2w.commitIndex < (m : Int) → m < n → ¬ QualP nodeC2w m)) :=
  ⟨rfl, by decide, update_commit_index_first_qualifying nodeC2w rfl (by decide)⟩

/-- C2 (counterexample): on a singleton-cluster leader with two current-term
entries and `commit_index = -1`, both indices 0 and 1 satisfy the term and
majority conditions, yet `_update_commit_index` sets `commit_index` to 0, not
to the largest qualifying index 1. -/
theorem commit_index_not_largest :
    (updateCommitIndex nodeC2x).commitIndex = 0 ∧
    (nodeC2x.log.get? 1).map SLogEntry.term = some nodeC2x.currentTerm ∧
    nodeC2x.peerAddresses.length + 1 < 2 * replicatedCount nodeC2x 1 ∧
    (0 : Int) ≠ (1 : Int) := by
  refine ⟨?_, rfl, by decide, by decide⟩
  decide

/-- C3: the `RequestVote` handler rejects a lower term with the current term and
an unchanged node; a higher term steps the node down to follower with the
adopted term (clearing `voted_for`, so the vote is then granted exactly when
the candidate log is up to date); at an equal term the vote is granted exactly
when `voted_for` is free or matches the candidate and the log is up to date;
a granted vote records the candidate, and log up-to-dateness means a strictly
greater last log term or an equal term with at least our last log index. -/
theorem request_vote_grant_rule (node : NodeState) (req : VoteRequest) (now : Nat) :
    (req.term < node.currentTerm →
      (requestVoteHandler node req now).1.vote_granted = false ∧
      (requestVoteHandler node req now).1.term = node.currentTerm ∧
      (requestVoteHandler node req now).2 = node) ∧
    (node.currentTerm < req.term →
      (requestVoteHandler node req now).2.role = Role.follower ∧
      (requestVoteHandler node req now).2.currentTerm = req.term ∧
      (requestVoteHandler node req now).1.term = req.term ∧
      ((requestVoteHandler node req now).1.vote_granted = true ↔
        is_log_up_to_date node.log req = true)) ∧
    (req.term = node.currentTerm →
      ((requestVoteHandler node req now).1.vote_granted = true ↔
        ((node.votedFor = none ∨ node.votedFor = some req.server_id) ∧
          is_log_up_to_date node.log req = true))) ∧
    ((requestVoteHandler node req now).1.vote_granted = true →
      (requestVoteHandler node req now).2.votedFor = some req.server_id) ∧
    (is_log_up_to_date node.log req = true ↔
      (lastLogTerm node.log < req.last_log_term ∨
        (req.last_log_term = lastLogTerm node.log ∧
          (node.log.length : Int) - 1 ≤ req.last_log_index))) := by
  refine ⟨?_, ?_, ?_, ?_, ?_⟩
  · intro h
    unfold requestVoteHandler
    simp [h]
  · intro h
    have h1 : ¬ req.term < node.currentTerm := by omega
    unfold requestVoteHandler become_follower
    simp only [h1, if_false, if_pos h]
    split
    · rename_i hcond
      simp_all
    · rename_i hcond
      simp only [not_and, not_or] at hcond
      constructor
      · rfl
      constructor
      · rfl
      constructor
      · rfl
      · simp only [Bool.false_eq_true, false_iff]
        intro hup
        exact absurd hup (by simpa using hcond)
  · intro h
    have h1 : ¬ req.term < node.currentTerm := by omega
    have h2 : ¬ node.currentTerm < req.term := by omega
    unfold requestVoteHandler
    simp only [h1, if_false, h2]
    split
    · rename_i hcond
      simpa using hcond
    · rename_i hcond
      simp only [Bool.false_eq_true, false_iff]
      simpa using hcond
  · unfold requestVoteHandler
    split
    · intro h
      simp at h
    · simp only []
      split <;> split <;> intro h <;> first | rfl | simp at h
  · unfold is_log_up_to_date
    split
    · rename_i he
      constructor
      · intro h
        exact Or.inr ⟨he, by simpa using h⟩
      · intro h
        rcases h with h | h
        · omega
        · simpa using h.2
    · rename_i he
      constructor
      · intro h
        exact Or.inl (by simpa using h)
      · intro h
        rcases h with h | h
        · simpa using h
        · exact absurd h.1 he

theorem request_vote_grant_rule_witness :
    nodeC3.role = Role.leader ∧ nodeC3.currentTerm = 3 ∧ reqC3.term = 5 ∧
    nodeC3.currentTerm < reqC3.term ∧
    (requestVoteHandler nodeC3 reqC3 0).2.role = Role.follower ∧
    (requestVoteHandler nodeC3 reqC3 0).2.currentTerm = 5 ∧
    (requestVoteHandler nodeC3 reqC3 0).1.term = 5 ∧
    (requestVoteHandler nodeC3 reqC3 0).1.vote_granted = true := by
  have h := (request_vote_grant_rule nodeC3 reqC3 0).2.1 (by decide)
  exact ⟨rfl, rfl, rfl, by decide, h.1, h.2.1, h.2.2.1, h.2.2.2.mpr (by decide)⟩

theorem heartbeat_geq_term_stepdown_witness :
    nodeC9.role = Role.leader ∧ nodeC9.currentTerm = reqC9.term ∧
    nodeC9.votedFor = some "s1" ∧
    (sendHeartbeatHandler nodeC9 reqC9 11).2.role = Role.follower ∧
    (sendHeartbeatHandler nodeC9 reqC9 11).2.votedFor = none ∧
    (sendHeartbeatHandler nodeC9 reqC9 11).2.currentTerm = reqC9.term ∧
    (sendHeartbeatHandler nodeC9 reqC9 11).2.leaderId = some "s2" ∧
    (sendHeartbeatHandler nodeC9 reqC9 11).2.lastHeartbeat = 11 ∧
    (sendHeartbeatHandler nodeC9 reqC9 11).1.success = true ∧
    (sendHeartbeatHandler nodeC9 reqC9 11).1.term = reqC9.term := by
  have h := heartbeat_geq_term_stepdown nodeC9 reqC9 11 (by decide)
  exact ⟨rfl, rfl, rfl, h.1, h.2.1, h.2.2.1, h.2.2.2.1, h.2.2.2.2.1, h.2.2.2.2.2.1,
    h.2.2.2.2.2.2⟩

end Collab
